import Mathlib

/-!
# Verification of the Netzeal real-time connection manager

Shallow embedding of `backend/app/core/websocket_manager.py`
(`WebSocketConnectionManager`) and the state-relevant parts of
`backend/app/routers/websocket.py` from the Netzeal_APP repository.

Modelling conventions:
* Python dicts become association lists (`List (κ × υ)`) when the code
  iterates over them, and functions `κ → Option υ` when the code only does
  point lookups/updates (`presence`, `heartbeats`, `connection_meta`).
* Python sets of user ids become duplicate-free `List UserId`
  (`set.add` = append-if-absent, `set.discard` = filter).
* `datetime.utcnow()` becomes an explicit `now : Nat` argument of each
  operation; expiry timestamps are `Nat` seconds.
* The transport (`websocket.send_json`) is modelled by a function
  `ok : ConnId → Bool` saying which connections accept a send during the
  operation; a failing send raises in Python, which the manager converts
  into `disconnect` of the dead connection.
* `disconnect` triggers `_broadcast_presence_update`, whose sends can fail
  and recursively disconnect further dead connections.  This cascade is
  embedded with an explicit fuel argument (`disconnectAux`); the public
  `disconnect` supplies fuel that is larger than the cascade can consume.
  All theorems whose proofs touch the cascade are proved for every fuel
  value, so no fuel-sufficiency argument is needed.
* Member/room iteration order follows the embedded list order; the Python
  code iterates sets/dicts whose order is an implementation detail none of
  the verified properties depend on.
-/

namespace Netzeal

abbrev UserId := Nat
abbrev ConnId := String
abbrev RoomId := String

/-! ## Association-list primitives (Python `dict` semantics) -/

/-- Lookup in an association list (first matching key, like a dict). -/
def alGet {α β : Type} [DecidableEq α] : List (α × β) → α → Option β
  | [], _ => none
  | p :: t, k => if p.1 = k then some p.2 else alGet t k

/-- `d[k] = v`: overwrite in place if the key exists (keeping its position,
as Python dicts do), otherwise append the new key at the end. -/
def alSet {α β : Type} [DecidableEq α] : List (α × β) → α → β → List (α × β)
  | [], k, v => [(k, v)]
  | p :: t, k, v => if p.1 = k then (k, v) :: t else p :: alSet t k v

/-- `del d[k]` / `d.pop(k, None)`: remove the entry for the key. -/
def alErase {α β : Type} [DecidableEq α] : List (α × β) → α → List (α × β)
  | [], _ => []
  | p :: t, k => if p.1 = k then t else p :: alErase t k

/-- `set.add`: append if absent (duplicate-free lists model sets). -/
def setAdd {α : Type} [DecidableEq α] (l : List α) (x : α) : List α :=
  if x ∈ l then l else l ++ [x]

/-- Point update of a function-backed map. -/
def fnSet {α β : Type} [DecidableEq α] (f : α → Option β) (k : α) (v : β) :
    α → Option β :=
  fun x => if x = k then some v else f x

/-- Point removal (`pop(k, None)`) on a function-backed map. -/
def fnPop {α β : Type} [DecidableEq α] (f : α → Option β) (k : α) :
    α → Option β :=
  fun x => if x = k then none else f x

/-! ## Data model -/

/-- `self.presence[user_id]` entry (`_update_presence`). -/
structure PresenceInfo where
  is_online : Bool
  last_seen : Nat
  connection_count : Nat
deriving DecidableEq

/-- `self.connection_meta[connection_id]` entry (device info omitted:
it is opaque payload the manager never reads). -/
structure ConnMeta where
  user_id : UserId
  connected_at : Nat
  last_activity : Nat
deriving DecidableEq

/-- The mutable state of `WebSocketConnectionManager`. -/
@[ext]
structure ManagerState where
  /-- `self.connections : {user_id: {connection_id: WebSocket}}`
  (we keep the dict's key list; the socket object itself is represented
  by its behaviour `ok` at each operation). -/
  connections : List (UserId × List ConnId)
  /-- `self.rooms : {room_id: Set[user_id]}` -/
  rooms : List (RoomId × List UserId)
  /-- `self.typing_status : {room_id: {user_id: expiry}}` -/
  typing_status : List (RoomId × List (UserId × Nat))
  /-- `self.presence : {user_id: {...}}` -/
  presence : UserId → Option PresenceInfo
  /-- `self.heartbeats : {connection_id: last_ping}` -/
  heartbeats : ConnId → Option Nat
  /-- `self.connection_meta : {connection_id: {...}}` -/
  connection_meta : ConnId → Option ConnMeta

/-- The manager's initial state (`__init__`). -/
def initState : ManagerState :=
  ⟨[], [], [], fun _ => none, fun _ => none, fun _ => none⟩

/-! ## Read-only queries -/

/-- The connection ids of a user (`self.connections.get(user_id, {})`). -/
def connsOf (s : ManagerState) (u : UserId) : List ConnId :=
  (alGet s.connections u).getD []

/-- `get_room_members`: `self.rooms.get(room_id, set())`. -/
def get_room_members (s : ManagerState) (r : RoomId) : List UserId :=
  (alGet s.rooms r).getD []

/-- Expiry of the typing signal of `(room, user)`, if present. -/
def typingOf (s : ManagerState) (r : RoomId) (u : UserId) : Option Nat :=
  alGet ((alGet s.typing_status r).getD []) u

/-- What one sweep at time `now` leaves of a typing entry: an expired
entry (strictly earlier than `now`) is removed, any other survives. -/
def sweepResultEntry (now : Nat) (o : Option Nat) : Option Nat :=
  match o with
  | some e => if e < now then none else some e
  | none => none

/-- Total number of live connections over all users. -/
def totalConns (s : ManagerState) : Nat :=
  (s.connections.map (fun p => p.2.length)).sum

/-- `is_user_online`: `user_id in self.connections and
len(self.connections[user_id]) > 0`. -/
def is_user_online (s : ManagerState) (u : UserId) : Bool :=
  (alGet s.connections u).isSome && decide (0 < (connsOf s u).length)

/-- `get_online_users`: `list(self.connections.keys())`. -/
def get_online_users (s : ManagerState) : List UserId :=
  s.connections.map Prod.fst

/-- Result of `get_connection_stats`. -/
structure ConnStats where
  total_users_online : Nat
  total_connections : Nat
  total_rooms : Nat
  active_typing : Nat
deriving DecidableEq

/-- `get_connection_stats`. -/
def get_connection_stats (s : ManagerState) : ConnStats :=
  { total_users_online := s.connections.length
    total_connections := (s.connections.map (fun p => p.2.length)).sum
    total_rooms := s.rooms.length
    active_typing := (s.typing_status.map (fun p => p.2.length)).sum }

/-! ## State-mutating operations -/

/-- `_update_presence(user_id, is_online)`: stores online flag, last-seen
`= now`, and `connection_count = len(self.connections.get(user_id, {}))`. -/
def update_presence (u : UserId) (b : Bool) (now : Nat) (s : ManagerState) :
    ManagerState :=
  { s with presence := fnSet s.presence u ⟨b, now, (connsOf s u).length⟩ }

/-- The `last_activity` refresh done for each successful send in
`send_to_user` (guarded by `if connection_id in self.connection_meta`). -/
def metaTouch (c : ConnId) (now : Nat) (s : ManagerState) : ManagerState :=
  match s.connection_meta c with
  | none => s
  | some m =>
      { s with connection_meta :=
          fnSet s.connection_meta c { m with last_activity := now } }

/-- Python truthiness of `exclude_user_id` combined with the equality test:
`if exclude_user_id and user_id == exclude_user_id: continue`.
`None` and `0` are both falsy, so they exclude nobody. -/
def excludedBy (ex : Option UserId) (v : UserId) : Bool :=
  match ex with
  | none => false
  | some e => decide (e ≠ 0) && decide (v = e)

/-- The members `broadcast_to_room` actually iterates over (everyone in the
room that the truthiness-guarded exclusion test does not skip). -/
def broadcastTargets (s : ManagerState) (r : RoomId) (ex : Option UserId) :
    List UserId :=
  match alGet s.rooms r with
  | none => []
  | some members => members.filter (fun v => !(excludedBy ex v))

/-- The room-membership cleanup loop at the end of `disconnect`: when the
user has no connections key left, it is discarded from every room, and rooms
that become empty are deleted. -/
def removeUserRooms (u : UserId) :
    List (RoomId × List UserId) → List (RoomId × List UserId)
  | [] => []
  | (r, m) :: t =>
      if u ∈ m then
        if (m.filter (fun x => decide (x ≠ u))).isEmpty then removeUserRooms u t
        else (r, m.filter (fun x => decide (x ≠ u))) :: removeUserRooms u t
      else (r, m) :: removeUserRooms u t

/-- `send_to_user`, parameterised by the function `dc` used to disconnect
dead connections.  Returns `success_count > 0` and the new state.  The
iteration collects dead connections first and disconnects them after the
loop, exactly as the source does. -/
def sendWith (dc : ConnId → UserId → ManagerState → ManagerState)
    (ok : ConnId → Bool) (now : Nat) (u : UserId) (s : ManagerState) :
    Bool × ManagerState :=
  match alGet s.connections u with
  | none => (false, s)
  | some conns =>
      let s1 := (conns.filter ok).foldl (fun st c => metaTouch c now st) s
      let dead := conns.filter (fun c => !(ok c))
      let s2 := dead.foldl (fun st c => dc c u st) s1
      (decide (0 < (conns.filter ok).length), s2)

/-- `broadcast_to_room`, parameterised by the disconnect function. -/
def broadcastRoomWith (dc : ConnId → UserId → ManagerState → ManagerState)
    (ok : ConnId → Bool) (now : Nat) (r : RoomId) (ex : Option UserId)
    (s : ManagerState) : ManagerState :=
  match alGet s.rooms r with
  | none => s
  | some members =>
      (members.filter (fun v => !(excludedBy ex v))).foldl
        (fun st v => (sendWith dc ok now v st).2) s

/-- `_broadcast_presence_update`: broadcast to every room the user is in,
excluding the user itself. -/
def broadcastPresenceWith (dc : ConnId → UserId → ManagerState → ManagerState)
    (ok : ConnId → Bool) (now : Nat) (u : UserId) (s : ManagerState) :
    ManagerState :=
  ((s.rooms.filter (fun p => decide (u ∈ p.2))).map (fun p => p.1)).foldl
    (fun st r => broadcastRoomWith dc ok now r (some u) st) s

/-- First block of `disconnect` (lines 107–115 of the source): remove the
connection if registered; if it was the user's last one, delete the user's
key, flip presence to offline and broadcast the presence change (which can
cascade into further disconnects via `dc`). -/
def dcPhase1 (dc : ConnId → UserId → ManagerState → ManagerState)
    (ok : ConnId → Bool) (now : Nat) (c : ConnId) (u : UserId)
    (s : ManagerState) : ManagerState :=
  if c ∈ connsOf s u then
    if ((connsOf s u).filter (fun x => decide (x ≠ c))).isEmpty then
      broadcastPresenceWith dc ok now u
        (update_presence u false now
          { s with connections := alErase s.connections u })
    else
      { s with connections :=
          (alSet s.connections u ((connsOf s u).filter (fun x => decide (x ≠ c)))) }
  else s

/-- Second block of `disconnect` (lines 117–119): pop the metadata and
heartbeat entries of the connection id. -/
def dcPhase2 (c : ConnId) (s : ManagerState) : ManagerState :=
  { s with connection_meta := fnPop s.connection_meta c,
           heartbeats := fnPop s.heartbeats c }

/-- Third block of `disconnect` (lines 121–128): if the user has no
connections key left, remove it from every room, deleting rooms that
become empty. -/
def dcPhase3 (u : UserId) (s : ManagerState) : ManagerState :=
  if (alGet s.connections u).isNone then
    { s with rooms := removeUserRooms u s.rooms }
  else s

/-- One level of `disconnect(connection_id, user_id)`. -/
def disconnectBody (dc : ConnId → UserId → ManagerState → ManagerState)
    (ok : ConnId → Bool) (now : Nat) (c : ConnId) (u : UserId)
    (s : ManagerState) : ManagerState :=
  dcPhase3 u (dcPhase2 c (dcPhase1 dc ok now c u s))

/-- Fuelled cascade of `disconnect`.  Each nested disconnect performed while
delivering presence updates runs at one fuel less; the public wrappers pass
more fuel than the cascade can consume (every nested level needs a
connection to have been removed first). -/
def disconnectAux :
    Nat → (ConnId → Bool) → Nat → ConnId → UserId → ManagerState →
    ManagerState
  | 0, _, _, _, _, s => s
  | f + 1, ok, now, c, u, s =>
      disconnectBody (fun c2 u2 st => disconnectAux f ok now c2 u2 st)
        ok now c u s

/-- `disconnect(connection_id, user_id)`. -/
def disconnect (ok : ConnId → Bool) (now : Nat) (c : ConnId) (u : UserId)
    (s : ManagerState) : ManagerState :=
  disconnectAux (4 * totalConns s + 8) ok now c u s

/-- The disconnect function handed to the dispatch helpers: each call gets
fresh (sufficient) fuel computed from the state it receives. -/
def dcFresh (ok : ConnId → Bool) (now : Nat) :
    ConnId → UserId → ManagerState → ManagerState :=
  fun c u s => disconnect ok now c u s

/-- `send_to_user(user_id, message)`. -/
def send_to_user (ok : ConnId → Bool) (now : Nat) (u : UserId)
    (s : ManagerState) : Bool × ManagerState :=
  sendWith (dcFresh ok now) ok now u s

/-- `broadcast_to_room(room_id, message, exclude_user_id)`. -/
def broadcast_to_room (ok : ConnId → Bool) (now : Nat) (r : RoomId)
    (ex : Option UserId) (s : ManagerState) : ManagerState :=
  broadcastRoomWith (dcFresh ok now) ok now r ex s

/-- `connect(websocket, user_id, connection_id, device_info)`: register the
connection, store metadata and heartbeat, update presence to online, and
(if the `CONNECTION_SUCCESS` send to the new socket does not raise)
broadcast the presence change. -/
def connect (ok : ConnId → Bool) (now : Nat) (u : UserId) (c : ConnId)
    (s : ManagerState) : ManagerState :=
  let conns := connsOf s u
  let conns2 := if c ∈ conns then conns else conns ++ [c]
  let s1 : ManagerState :=
    { s with connections := alSet s.connections u conns2 }
  let s2 : ManagerState :=
    { s1 with connection_meta := fnSet s1.connection_meta c ⟨u, now, now⟩ }
  let s3 : ManagerState := { s2 with heartbeats := fnSet s2.heartbeats c now }
  let s4 := update_presence u true now s3
  if ok c then broadcastPresenceWith (dcFresh ok now) ok now u s4 else s4

/-- `join_room(room_id, user_id)`. -/
def join_room (r : RoomId) (u : UserId) (s : ManagerState) : ManagerState :=
  { s with rooms := alSet s.rooms r (setAdd (get_room_members s r) u) }

/-- `leave_room(room_id, user_id)`: discard the member; delete the room if
it becomes empty. -/
def leave_room (r : RoomId) (u : UserId) (s : ManagerState) : ManagerState :=
  match alGet s.rooms r with
  | none => s
  | some m =>
      let m2 := m.filter (fun x => decide (x ≠ u))
      if m2.isEmpty then { s with rooms := alErase s.rooms r }
      else { s with rooms := alSet s.rooms r m2 }

/-- `handle_typing(room_id, user_id, is_typing)`: on start, record expiry
`now + 5` (the 5-second TTL hard-coded in the source); on stop, pop the
user's entry (leaving the room's inner dict in place); then broadcast the
typing event to the room excluding the user. -/
def handle_typing (ok : ConnId → Bool) (now : Nat) (r : RoomId) (u : UserId)
    (typing : Bool) (s : ManagerState) : ManagerState :=
  let s1 :=
    if typing then
      { s with typing_status :=
          (alSet s.typing_status r
            (alSet ((alGet s.typing_status r).getD []) u (now + 5))) }
    else
      match alGet s.typing_status r with
      | none => s
      | some inner =>
          { s with typing_status := alSet s.typing_status r (alErase inner u) }
  broadcastRoomWith (dcFresh ok now) ok now r (some u) s1

/-- `handle_heartbeat(connection_id)`: refresh the heartbeat and
`last_activity` if the connection is known; the PONG reply can fail without
any state effect (the exception is only logged). -/
def handle_heartbeat (now : Nat) (c : ConnId) (s : ManagerState) :
    ManagerState :=
  match s.connection_meta c with
  | none => s
  | some m =>
      { s with heartbeats := fnSet s.heartbeats c now,
               connection_meta :=
                 fnSet s.connection_meta c { m with last_activity := now } }

/-- The users of one room whose typing expiry satisfies `now > expiry`
(`expired_users` in `cleanup_stale_connections`; note the strict
comparison). -/
def expiredOf (now : Nat) (inner : List (UserId × Nat)) : List UserId :=
  (inner.filter (fun p => decide (p.2 < now))).map (fun p => p.1)

/-- One iteration of the expired-typing loop body: delete the user's
typing entry for the room, then broadcast "typing stopped" to the room
(with no exclusion). -/
def sweepRoomStep (dc : ConnId → UserId → ManagerState → ManagerState)
    (ok : ConnId → Bool) (now : Nat) (r : RoomId) (st : ManagerState)
    (uid : UserId) : ManagerState :=
  broadcastRoomWith dc ok now r none
    { st with typing_status :=
        (alSet st.typing_status r
          (alErase ((alGet st.typing_status r).getD []) uid)) }

/-- The expired-typing part of one `cleanup_stale_connections` tick,
processing the given list of room keys: per room, the users whose expiry
satisfies `now > expiry` are deleted from the room's typing dict and a
"typing stopped" broadcast is emitted for each.  Returns the
`(room, user)` pairs swept, in processing order. -/
def sweepTypingAux (dc : ConnId → UserId → ManagerState → ManagerState)
    (ok : ConnId → Bool) (now : Nat) :
    List RoomId → ManagerState → List (RoomId × UserId) × ManagerState
  | [], s => ([], s)
  | r :: rest, s =>
      let expired := expiredOf now ((alGet s.typing_status r).getD [])
      let s1 := expired.foldl (sweepRoomStep dc ok now r) s
      let tail := sweepTypingAux dc ok now rest s1
      (expired.map (fun uid => (r, uid)) ++ tail.1, tail.2)

/-- The typing sweep over all rooms of the typing dict (the
`for room_id in list(self.typing_status.keys())` loop in
`cleanup_stale_connections`; the stale-heartbeat part of the tick is a
sequence of ordinary `disconnect` calls and is covered by them). -/
def sweep_typing (ok : ConnId → Bool) (now : Nat) (s : ManagerState) :
    List (RoomId × UserId) × ManagerState :=
  sweepTypingAux (dcFresh ok now) ok now (s.typing_status.map (fun p => p.1)) s

/-- The state effect of the `MESSAGE` event handler of
`websocket_chat_endpoint` (routers/websocket.py): it persists the message
and broadcasts `NEW_MESSAGE` to room `f"conv_{conversation_id}"` with no
exclusion; it performs no typing-state update whatsoever. -/
def handle_message_event (ok : ConnId → Bool) (now : Nat)
    (conversationId : Nat) (_senderId : UserId) (s : ManagerState) :
    ManagerState :=
  broadcast_to_room ok now ("conv_" ++ toString conversationId) none s

/-! ## Reachable manager states

Every public mutating entry point of the manager is a step.  The
stale-connection half of a sweeper tick is a sequence of `disconnect`
calls with arguments taken from `connection_meta`, so it is subsumed by
the `disconnect` step. -/

inductive Reachable : ManagerState → Prop
  | init : Reachable initState
  | of_connect {s ok now u c} : Reachable s → Reachable (connect ok now u c s)
  | of_disconnect {s ok now c u} :
      Reachable s → Reachable (disconnect ok now c u s)
  | of_send {s ok now u} : Reachable s → Reachable (send_to_user ok now u s).2
  | of_broadcast {s ok now r ex} :
      Reachable s → Reachable (broadcast_to_room ok now r ex s)
  | of_join {s r u} : Reachable s → Reachable (join_room r u s)
  | of_leave {s r u} : Reachable s → Reachable (leave_room r u s)
  | of_typing {s ok now r u b} :
      Reachable s → Reachable (handle_typing ok now r u b s)
  | of_heartbeat {s now c} : Reachable s → Reachable (handle_heartbeat now c s)
  | of_sweep {s ok now} : Reachable s → Reachable (sweep_typing ok now s).2

/-! ## Concrete fixtures used by witnesses and counterexamples -/

/-- A transport on which every send succeeds. -/
def okAll : ConnId → Bool := fun _ => true

/-- A transport on which exactly connection `"c1"` fails. -/
def okButC1 : ConnId → Bool := fun c => !(c == "c1")

/-- User 1 online with connections `"c1"` (dead) and `"c2"` (live). -/
def stTwoConns : ManagerState :=
  connect okButC1 0 1 "c2" (connect okButC1 0 1 "c1" initState)

/-- User 1 online with one connection and member of room `"r"`. -/
def stOneConnInRoom : ManagerState :=
  join_room "r" 1 (connect okAll 0 1 "c" initState)

/-- User 1 online, member of room `"R"`, with an active typing signal in
`"R"` (expiry 5). -/
def stTypingInRoom : ManagerState :=
  handle_typing okAll 0 "R" 1 true (join_room "R" 1 (connect okAll 0 1 "c" initState))

/-- User 1 online, member of room `"conv_7"`, typing there (expiry 5). -/
def stTypingConv7 : ManagerState :=
  handle_typing okAll 0 "conv_7" 1 true
    (join_room "conv_7" 1 (connect okAll 0 1 "c" initState))

/-- A lone typing signal for user 1 in room `"r"` with expiry 10. -/
def stTypingExpiry10 : ManagerState :=
  handle_typing okAll 5 "r" 1 true initState

/-- Room `"g"` with members 2 and 0 (identity 0 is a valid Python user id
value and is falsy). -/
def stRoomWithZero : ManagerState :=
  join_room "g" 0 (join_room "g" 2 initState)

/-- Room `"g"` with members 1, 2 and 3. -/
def stRoomOf3 : ManagerState :=
  join_room "g" 3 (join_room "g" 2 (join_room "g" 1 initState))

/-- User 5 offline but member of room `"r"` (reachable: `join_room` has no
connectivity precondition, and §4.2 of the spec says a member can be
offline). -/
def stOfflineMember : ManagerState :=
  join_room "r" 5 initState

/-- User 1 with two live connections, member of room `"r"`. -/
def stTwoConnsInRoom : ManagerState :=
  join_room "r" 1 (connect okAll 0 1 "c2" (connect okAll 0 1 "c1" initState))

/-! ## Association-list lemmas -/

theorem foldlPresMem {α σ : Type} {P : σ → Prop} {f : σ → α → σ} :
    ∀ (l : List α) (s : σ), (∀ a ∈ l, ∀ st, P st → P (f st a)) → P s →
      P (l.foldl f s)
  | [], _, _, hs => hs
  | a :: t, s, h, hs =>
      foldlPresMem t (f s a)
        (fun b hb st hst => h b (List.mem_cons_of_mem _ hb) st hst)
        (h a (List.mem_cons_self _ _) s hs)

theorem alGet_alSet_self {α β : Type} [DecidableEq α] :
    ∀ (l : List (α × β)) (k : α) (v : β), alGet (alSet l k v) k = some v
  | [], k, v => by simp [alSet, alGet]
  | p :: t, k, v => by
      by_cases h : p.1 = k
      · simp [alSet, h, alGet]
      · simp [alSet, h, alGet, alGet_alSet_self t k v]

theorem alGet_alSet_ne {α β : Type} [DecidableEq α] {k k2 : α} (hk : k2 ≠ k) :
    ∀ (l : List (α × β)) (v : β), alGet (alSet l k v) k2 = alGet l k2
  | [], v => by simp [alSet, alGet, Ne.symm hk]
  | p :: t, v => by
      by_cases h : p.1 = k
      · have h2 : p.1 ≠ k2 := by rw [h]; exact Ne.symm hk
        simp [alSet, h, alGet, Ne.symm hk, h2]
      · simp [alSet, h, alGet, alGet_alSet_ne hk t v]

theorem alGet_mem {α β : Type} [DecidableEq α] {k : α} {v : β} :
    ∀ {l : List (α × β)}, alGet l k = some v → (k, v) ∈ l
  | [], h => by simp [alGet] at h
  | p :: t, h => by
      by_cases hp : p.1 = k
      · obtain ⟨a, b⟩ := p
        have ha : a = k := hp
        subst ha
        have hb : b = v := by simpa [alGet] using h
        subst hb
        exact List.mem_cons_self _ _
      · exact List.mem_cons_of_mem _ (alGet_mem (by simpa [alGet, hp] using h))

theorem alGet_eq_none_iff {α β : Type} [DecidableEq α] {k : α} :
    ∀ {l : List (α × β)}, alGet l k = none ↔ k ∉ l.map Prod.fst
  | [] => by simp [alGet]
  | p :: t => by
      by_cases hp : p.1 = k
      · simp [alGet, hp]
      · simp [alGet, hp, alGet_eq_none_iff (l := t), Ne.symm hp]

theorem alErase_sublist {α β : Type} [DecidableEq α] (k : α) :
    ∀ (l : List (α × β)), (alErase l k).Sublist l
  | [] => by simp [alErase]
  | p :: t => by
      by_cases hp : p.1 = k
      · rw [alErase, if_pos hp]
        exact List.sublist_cons_self p t
      · rw [alErase, if_neg hp]
        exact (alErase_sublist k t).cons₂ p

theorem alErase_keys_sublist {α β : Type} [DecidableEq α] (k : α)
    (l : List (α × β)) :
    ((alErase l k).map Prod.fst).Sublist (l.map Prod.fst) :=
  (alErase_sublist k l).map Prod.fst

theorem alGet_alErase_self {α β : Type} [DecidableEq α] {k : α} :
    ∀ {l : List (α × β)}, (l.map Prod.fst).Nodup → alGet (alErase l k) k = none
  | [], _ => by simp [alErase, alGet]
  | p :: t, hn => by
      rw [List.map_cons, List.nodup_cons] at hn
      by_cases hp : p.1 = k
      · have hnp := hn.1
        rw [hp] at hnp
        simpa [alErase, hp] using alGet_eq_none_iff.mpr hnp
      · simp [alErase, hp, alGet, alGet_alErase_self hn.2]

theorem alGet_alErase_ne {α β : Type} [DecidableEq α] {k k2 : α}
    (hk : k2 ≠ k) :
    ∀ (l : List (α × β)), alGet (alErase l k) k2 = alGet l k2
  | [] => by simp [alErase]
  | p :: t => by
      by_cases hp : p.1 = k
      · simp [alErase, hp, alGet, Ne.symm hk]
      · simp [alErase, hp, alGet, alGet_alErase_ne hk t]

theorem alSet_keys_of_mem {α β : Type} [DecidableEq α] {k : α} :
    ∀ {l : List (α × β)} (v : β), k ∈ l.map Prod.fst →
      (alSet l k v).map Prod.fst = l.map Prod.fst
  | [], v, h => by simp at h
  | p :: t, v, h => by
      by_cases hp : p.1 = k
      · simp [alSet, hp]
      · have : k ∈ t.map Prod.fst := by
          rcases List.mem_map.mp h with ⟨q, hq, hqk⟩
          rcases List.mem_cons.mp hq with rfl | hq2
          · exact absurd hqk hp
          · exact List.mem_map.mpr ⟨q, hq2, hqk⟩
        simp [alSet, hp, alSet_keys_of_mem v this]

theorem alSet_keys_of_not_mem {α β : Type} [DecidableEq α] {k : α} :
    ∀ {l : List (α × β)} (v : β), k ∉ l.map Prod.fst →
      (alSet l k v).map Prod.fst = l.map Prod.fst ++ [k]
  | [], v, _ => by simp [alSet]
  | p :: t, v, h => by
      have hp : p.1 ≠ k := by
        intro hpk
        exact h (by simp [hpk])
      have ht : k ∉ t.map Prod.fst := fun hh => h (by simp [hh])
      simp [alSet, hp, alSet_keys_of_not_mem v ht]

theorem alSet_keys_nodup {α β : Type} [DecidableEq α] {k : α}
    {l : List (α × β)} (v : β) (hn : (l.map Prod.fst).Nodup) :
    ((alSet l k v).map Prod.fst).Nodup := by
  by_cases h : k ∈ l.map Prod.fst
  · rwa [alSet_keys_of_mem v h]
  · rw [alSet_keys_of_not_mem v h]
    refine List.Nodup.append hn (List.nodup_singleton k) ?_
    intro a ha hb
    rw [List.mem_singleton] at hb
    subst hb
    exact h ha

theorem mem_alSet {α β : Type} [DecidableEq α] {k : α} {v : β} :
    ∀ {l : List (α × β)} {p : α × β}, p ∈ alSet l k v → p ∈ l ∨ p = (k, v)
  | [], p, h => by simpa [alSet] using h
  | q :: t, p, h => by
      by_cases hq : q.1 = k
      · rcases List.mem_cons.mp (by simpa [alSet, hq] using h) with rfl | hp
        · exact Or.inr rfl
        · exact Or.inl (List.mem_cons_of_mem _ hp)
      · rcases List.mem_cons.mp (by simpa [alSet, hq] using h) with rfl | hp
        · exact Or.inl (List.mem_cons_self _ _)
        · rcases mem_alSet hp with hp2 | hp2
          · exact Or.inl (List.mem_cons_of_mem _ hp2)
          · exact Or.inr hp2

theorem setAdd_ne_nil {α : Type} [DecidableEq α] (l : List α) (x : α) :
    setAdd l x ≠ [] := by
  unfold setAdd
  split
  · rename_i h
    intro hnil
    rw [hnil] at h
    exact absurd h (List.not_mem_nil x)
  · simp

/-! ## removeUserRooms lemmas -/

theorem removeUserRooms_keys_sublist (u : UserId) :
    ∀ (l : List (RoomId × List UserId)),
      ((removeUserRooms u l).map Prod.fst).Sublist (l.map Prod.fst)
  | [] => by simp [removeUserRooms]
  | (r, m) :: t => by
      rw [removeUserRooms]
      by_cases hm : u ∈ m
      · rw [if_pos hm]
        by_cases he : (m.filter (fun x => decide (x ≠ u))).isEmpty = true
        · rw [if_pos he, List.map_cons]
          exact (removeUserRooms_keys_sublist u t).trans
            (List.sublist_cons_self _ _)
        · rw [if_neg he, List.map_cons, List.map_cons]
          exact (removeUserRooms_keys_sublist u t).cons₂ r
      · rw [if_neg hm, List.map_cons, List.map_cons]
        exact (removeUserRooms_keys_sublist u t).cons₂ r

theorem removeUserRooms_mem (u : UserId) :
    ∀ {l : List (RoomId × List UserId)} {p : RoomId × List UserId},
      p ∈ removeUserRooms u l →
        u ∉ p.2 ∧ (p ∈ l ∨ ∃ q ∈ l, p.1 = q.1 ∧
          p.2 = q.2.filter (fun x => decide (x ≠ u)) ∧ p.2 ≠ [])
  | [], p, h => by simp [removeUserRooms] at h
  | (r, m) :: t, p, h => by
      rw [removeUserRooms] at h
      by_cases hm : u ∈ m
      · rw [if_pos hm] at h
        by_cases he : (m.filter (fun x => decide (x ≠ u))).isEmpty = true
        · rw [if_pos he] at h
          obtain ⟨h1, h2⟩ := removeUserRooms_mem u h
          refine ⟨h1, ?_⟩
          rcases h2 with h2 | ⟨q, hq, hq2⟩
          · exact Or.inl (List.mem_cons_of_mem _ h2)
          · exact Or.inr ⟨q, List.mem_cons_of_mem _ hq, hq2⟩
        · rw [if_neg he] at h
          rcases List.mem_cons.mp h with rfl | h2
          · refine ⟨?_, Or.inr ⟨(r, m), List.mem_cons_self _ _, rfl, rfl, ?_⟩⟩
            · simp
            · intro hnil
              rw [← List.isEmpty_iff] at hnil
              exact he hnil
          · obtain ⟨h1, h3⟩ := removeUserRooms_mem u h2
            refine ⟨h1, ?_⟩
            rcases h3 with h3 | ⟨q, hq, hq2⟩
            · exact Or.inl (List.mem_cons_of_mem _ h3)
            · exact Or.inr ⟨q, List.mem_cons_of_mem _ hq, hq2⟩
      · rw [if_neg hm] at h
        rcases List.mem_cons.mp h with rfl | h2
        · exact ⟨hm, Or.inl (List.mem_cons_self _ _)⟩
        · obtain ⟨h1, h3⟩ := removeUserRooms_mem u h2
          refine ⟨h1, ?_⟩
          rcases h3 with h3 | ⟨q, hq, hq2⟩
          · exact Or.inl (List.mem_cons_of_mem _ h3)
          · exact Or.inr ⟨q, List.mem_cons_of_mem _ hq, hq2⟩

theorem removeUserRooms_not_mem (u : UserId) {l : List (RoomId × List UserId)}
    {p : RoomId × List UserId} (h : p ∈ removeUserRooms u l) : u ∉ p.2 :=
  (removeUserRooms_mem u h).1

theorem removeUserRooms_nonempty (u : UserId) {l : List (RoomId × List UserId)}
    (hl : ∀ p ∈ l, p.2 ≠ []) {p : RoomId × List UserId}
    (h : p ∈ removeUserRooms u l) : p.2 ≠ [] := by
  rcases (removeUserRooms_mem u h).2 with h2 | ⟨q, _, _, _, hne⟩
  · exact hl p h2
  · exact hne

theorem removeUserRooms_fixpoint (u : UserId) :
    ∀ {l : List (RoomId × List UserId)}, (∀ p ∈ l, u ∉ p.2) →
      removeUserRooms u l = l
  | [], _ => by simp [removeUserRooms]
  | (r, m) :: t, h => by
      have hm : u ∉ m := h (r, m) (List.mem_cons_self _ _)
      rw [removeUserRooms, if_neg hm,
        removeUserRooms_fixpoint u (fun p hp => h p (List.mem_cons_of_mem _ hp))]

/-! ## Component frame lemmas for the dispatch helpers -/

theorem metaTouch_connections (c : ConnId) (now : Nat) (s : ManagerState) :
    (metaTouch c now s).connections = s.connections := by
  unfold metaTouch; cases s.connection_meta c <;> rfl

theorem metaTouch_rooms (c : ConnId) (now : Nat) (s : ManagerState) :
    (metaTouch c now s).rooms = s.rooms := by
  unfold metaTouch; cases s.connection_meta c <;> rfl

theorem metaTouch_typing (c : ConnId) (now : Nat) (s : ManagerState) :
    (metaTouch c now s).typing_status = s.typing_status := by
  unfold metaTouch; cases s.connection_meta c <;> rfl

theorem metaTouch_presence (c : ConnId) (now : Nat) (s : ManagerState) :
    (metaTouch c now s).presence = s.presence := by
  unfold metaTouch; cases s.connection_meta c <;> rfl

theorem metaTouch_heartbeats (c : ConnId) (now : Nat) (s : ManagerState) :
    (metaTouch c now s).heartbeats = s.heartbeats := by
  unfold metaTouch; cases s.connection_meta c <;> rfl

/-- Preservation of a predicate through `sendWith`: the only state changes
are `metaTouch` on successful connections and `dc` on the connections whose
send failed. -/
theorem sendWith_pres {P : ManagerState → Prop}
    {dc : ConnId → UserId → ManagerState → ManagerState} {ok : ConnId → Bool}
    {now : Nat} {u : UserId} {s : ManagerState}
    (hmt : ∀ c n st, P st → P (metaTouch c n st))
    (hdc : ∀ c2 u2 st, ok c2 = false → P st → P (dc c2 u2 st))
    (hs : P s) : P (sendWith dc ok now u s).2 := by
  unfold sendWith
  cases h : alGet s.connections u with
  | none => exact hs
  | some conns =>
      refine foldlPresMem _ _ ?_ ?_
      · intro a ha st hst
        have hfa : ok a = false := by
          have := (List.mem_filter.mp ha).2
          simpa using this
        exact hdc a u st hfa hst
      · exact foldlPresMem _ _ (fun a _ st hst => hmt a now st hst) hs

/-- Preservation of a predicate through `broadcast_to_room`'s body. -/
theorem broadcastRoomWith_pres {P : ManagerState → Prop}
    {dc : ConnId → UserId → ManagerState → ManagerState} {ok : ConnId → Bool}
    {now : Nat} {r : RoomId} {ex : Option UserId} {s : ManagerState}
    (hmt : ∀ c n st, P st → P (metaTouch c n st))
    (hdc : ∀ c2 u2 st, ok c2 = false → P st → P (dc c2 u2 st))
    (hs : P s) : P (broadcastRoomWith dc ok now r ex s) := by
  unfold broadcastRoomWith
  cases h : alGet s.rooms r with
  | none => exact hs
  | some members =>
      exact foldlPresMem _ _ (fun v _ st hst => sendWith_pres hmt hdc hst) hs

/-- Preservation of a predicate through `_broadcast_presence_update`. -/
theorem broadcastPresenceWith_pres {P : ManagerState → Prop}
    {dc : ConnId → UserId → ManagerState → ManagerState} {ok : ConnId → Bool}
    {now : Nat} {u : UserId} {s : ManagerState}
    (hmt : ∀ c n st, P st → P (metaTouch c n st))
    (hdc : ∀ c2 u2 st, ok c2 = false → P st → P (dc c2 u2 st))
    (hs : P s) : P (broadcastPresenceWith dc ok now u s) := by
  unfold broadcastPresenceWith
  exact foldlPresMem _ _ (fun r _ st hst => broadcastRoomWith_pres hmt hdc hst) hs

/-- Master preservation lemma for one `disconnect` level, parameterised by
a class `A` of admissible connection-id arguments (the cascade only ever
disconnects connections whose send failed, so `A` always contains them). -/
theorem disconnectBody_pres {P : ManagerState → Prop} {A : ConnId → Prop}
    {dc : ConnId → UserId → ManagerState → ManagerState} {ok : ConnId → Bool}
    {now : Nat} {c : ConnId} {u : UserId} {s : ManagerState}
    (hA : A c)
    (hmt : ∀ c' n st, P st → P (metaTouch c' n st))
    (hdc : ∀ c2 u2 st, ok c2 = false → P st → P (dc c2 u2 st))
    (hshrink : ∀ u' c' st, A c' → c' ∈ connsOf st u' →
      ((connsOf st u').filter (fun x => decide (x ≠ c'))).isEmpty = true →
      P st → P (update_presence u' false now
        { st with connections := alErase st.connections u' }))
    (hset : ∀ u' c' st, A c' → c' ∈ connsOf st u' →
      ¬(((connsOf st u').filter (fun x => decide (x ≠ c'))).isEmpty = true) →
      P st → P { st with connections :=
        (alSet st.connections u'
          ((connsOf st u').filter (fun x => decide (x ≠ c')))) })
    (hpop : ∀ c' st, P st → P (dcPhase2 c' st))
    (hrooms : ∀ u' st, P st → P { st with rooms := removeUserRooms u' st.rooms })
    (hs : P s) : P (disconnectBody dc ok now c u s) := by
  have h1 : P (dcPhase1 dc ok now c u s) := by
    unfold dcPhase1
    by_cases hcm : c ∈ connsOf s u
    · rw [if_pos hcm]
      by_cases he : ((connsOf s u).filter (fun x => decide (x ≠ c))).isEmpty = true
      · rw [if_pos he]
        exact broadcastPresenceWith_pres hmt hdc (hshrink u c s hA hcm he hs)
      · rw [if_neg he]
        exact hset u c s hA hcm he hs
    · rw [if_neg hcm]
      exact hs
  have h2 : P (dcPhase2 c (dcPhase1 dc ok now c u s)) := hpop c _ h1
  unfold disconnectBody dcPhase3
  by_cases h3 :
      (alGet (dcPhase2 c (dcPhase1 dc ok now c u s)).connections u).isNone = true
  · rw [if_pos h3]
    exact hrooms u _ h2
  · rw [if_neg h3]
    exact h2

/-- Master preservation lemma for the whole `disconnect` cascade, at every
fuel value. -/
theorem disconnectAux_pres {P : ManagerState → Prop} {ok : ConnId → Bool}
    {now : Nat} (A : ConnId → Prop)
    (hAf : ∀ c2, ok c2 = false → A c2)
    (hmt : ∀ c' n st, P st → P (metaTouch c' n st))
    (hshrink : ∀ u' c' st, A c' → c' ∈ connsOf st u' →
      ((connsOf st u').filter (fun x => decide (x ≠ c'))).isEmpty = true →
      P st → P (update_presence u' false now
        { st with connections := alErase st.connections u' }))
    (hset : ∀ u' c' st, A c' → c' ∈ connsOf st u' →
      ¬(((connsOf st u').filter (fun x => decide (x ≠ c'))).isEmpty = true) →
      P st → P { st with connections :=
        (alSet st.connections u'
          ((connsOf st u').filter (fun x => decide (x ≠ c')))) })
    (hpop : ∀ c' st, P st → P (dcPhase2 c' st))
    (hrooms : ∀ u' st, P st → P { st with rooms := removeUserRooms u' st.rooms }) :
    ∀ f c u s, A c → P s → P (disconnectAux f ok now c u s) := by
  intro f
  induction f with
  | zero => intro c u s _ hs; exact hs
  | succ f ih =>
      intro c u s hA hs
      rw [disconnectAux]
      exact disconnectBody_pres hA hmt
        (fun c2 u2 st h2 hst => ih c2 u2 st (hAf c2 h2) hst)
        hshrink hset hpop hrooms hs

/-! ## The well-formedness / presence invariant -/

/-- Invariant of every reachable manager state:
keys of the connection and room dicts are duplicate-free (dict semantics);
every user key maps to a nonempty connection set; every room maps to a
nonempty member set (empty rooms are deleted); a presence record's online
flag is true exactly when the user has a connections key; every user with
a connections key has a presence record. -/
def WFInv (s : ManagerState) : Prop :=
  (s.connections.map Prod.fst).Nodup ∧
  (s.rooms.map Prod.fst).Nodup ∧
  (∀ p ∈ s.connections, p.2 ≠ []) ∧
  (∀ p ∈ s.rooms, p.2 ≠ []) ∧
  (∀ v pr, s.presence v = some pr →
    (pr.is_online = true ↔ alGet s.connections v ≠ none)) ∧
  (∀ v l, alGet s.connections v = some l → ∃ pr, s.presence v = some pr)

/-- `WFInv` only reads the connections, rooms and presence fields. -/
theorem WFInv_of_parts {s t : ManagerState}
    (hc : s.connections = t.connections) (hr : s.rooms = t.rooms)
    (hp : s.presence = t.presence) (h : WFInv t) : WFInv s := by
  unfold WFInv
  rw [hc, hr, hp]
  exact h

theorem connsOf_ne_nil_key {s : ManagerState} {u : UserId} {c : ConnId}
    (hcm : c ∈ connsOf s u) : ∃ conns, alGet s.connections u = some conns := by
  cases hx : alGet s.connections u with
  | none => rw [connsOf, hx] at hcm; simp at hcm
  | some l => exact ⟨l, rfl⟩

theorem WFInv_metaTouch {c : ConnId} {n : Nat} {st : ManagerState}
    (h : WFInv st) : WFInv (metaTouch c n st) :=
  WFInv_of_parts (metaTouch_connections c n st) (metaTouch_rooms c n st)
    (metaTouch_presence c n st) h

theorem WFInv_shrink {u' : UserId} {c' : ConnId} {now : Nat}
    {st : ManagerState} (hcm : c' ∈ connsOf st u') (hw : WFInv st) :
    WFInv (update_presence u' false now
      { st with connections := alErase st.connections u' }) := by
  obtain ⟨h1, h2, h3, h4, h5, h6⟩ := hw
  refine ⟨?_, h2, ?_, h4, ?_, ?_⟩
  · exact h1.sublist (alErase_keys_sublist u' st.connections)
  · intro p hp
    exact h3 p ((alErase_sublist u' st.connections).subset hp)
  · intro v pr hpr
    dsimp only [update_presence, fnSet] at hpr ⊢
    by_cases hv : v = u'
    · subst hv
      rw [if_pos rfl] at hpr
      have hpr2 := (Option.some.inj hpr).symm
      subst hpr2
      rw [alGet_alErase_self h1]
      simp
    · rw [if_neg hv] at hpr
      rw [alGet_alErase_ne hv]
      exact h5 v pr hpr
  · intro v l hl
    dsimp only [update_presence, fnSet] at hl ⊢
    by_cases hv : v = u'
    · subst hv
      rw [alGet_alErase_self h1] at hl
      cases hl
    · rw [alGet_alErase_ne hv] at hl
      obtain ⟨pr, hpr⟩ := h6 v l hl
      refine ⟨pr, ?_⟩
      rw [if_neg hv]
      exact hpr

theorem WFInv_set {u' : UserId} {c' : ConnId} {st : ManagerState}
    (hcm : c' ∈ connsOf st u')
    (he : ¬((((connsOf st u').filter (fun x => decide (x ≠ c')))).isEmpty = true))
    (hw : WFInv st) :
    WFInv { st with connections :=
      (alSet st.connections u' ((connsOf st u').filter (fun x => decide (x ≠ c')))) } := by
  obtain ⟨h1, h2, h3, h4, h5, h6⟩ := hw
  obtain ⟨conns, hg⟩ := connsOf_ne_nil_key hcm
  refine ⟨?_, h2, ?_, h4, ?_, ?_⟩
  · exact alSet_keys_nodup _ h1
  · intro p hp
    rcases mem_alSet hp with hp2 | hp2
    · exact h3 p hp2
    · rw [hp2]
      intro hnil
      exact he (List.isEmpty_iff.mpr hnil)
  · intro v pr hpr
    have h5' := h5 v pr hpr
    by_cases hv : v = u'
    · subst hv
      rw [alGet_alSet_self]
      rw [hg] at h5'
      simpa using h5'
    · rw [alGet_alSet_ne hv]
      exact h5'
  · intro v l hl
    by_cases hv : v = u'
    · subst hv
      exact h6 _ conns hg
    · rw [alGet_alSet_ne hv] at hl
      exact h6 v l hl

theorem WFInv_pop (c' : ConnId) (st : ManagerState) (h : WFInv st) :
    WFInv (dcPhase2 c' st) :=
  WFInv_of_parts rfl rfl rfl h

theorem WFInv_roomsClean (u' : UserId) (st : ManagerState) (h : WFInv st) :
    WFInv { st with rooms := removeUserRooms u' st.rooms } := by
  obtain ⟨h1, h2, h3, h4, h5, h6⟩ := h
  exact ⟨h1, h2.sublist (removeUserRooms_keys_sublist u' st.rooms), h3,
    fun p hp => removeUserRooms_nonempty u' h4 hp, h5, h6⟩

/-- `WFInv` is preserved by the whole disconnect cascade, at every fuel. -/
theorem disconnectAux_WFInv {ok : ConnId → Bool} {now : Nat} :
    ∀ f c u s, WFInv s → WFInv (disconnectAux f ok now c u s) := by
  intro f c u s hs
  refine disconnectAux_pres (fun _ => True) (fun _ _ => trivial)
    (fun c' n st h => WFInv_metaTouch h)
    (fun u' c' st _ hcm _ h => WFInv_shrink hcm h)
    (fun u' c' st _ hcm he h => WFInv_set hcm he h)
    (fun c' st h => WFInv_pop c' st h)
    (fun u' st h => WFInv_roomsClean u' st h)
    f c u s trivial hs

/-! ## Frame lemmas for the disconnect cascade (all fuel values) -/

/-- The disconnect cascade never touches the typing tracker. -/
theorem disconnectAux_typing {ok : ConnId → Bool} {now : Nat}
    (f : Nat) (c : ConnId) (u : UserId) (s : ManagerState) :
    (disconnectAux f ok now c u s).typing_status = s.typing_status := by
  refine disconnectAux_pres (P := fun st => st.typing_status = s.typing_status)
    (fun _ => True) (fun _ _ => trivial)
    (fun c' n st h => by show (metaTouch c' n st).typing_status = _; rw [metaTouch_typing]; exact h)
    (fun u' c' st _ _ _ h => h)
    (fun u' c' st _ _ _ h => h)
    (fun c' st h => h)
    (fun u' st h => h)
    f c u s trivial rfl

/-- The disconnect cascade never creates a connections key. -/
theorem disconnectAux_keysNone {ok : ConnId → Bool} {now : Nat} {v : UserId} :
    ∀ (f : Nat) (c : ConnId) (u : UserId) (s : ManagerState),
      alGet s.connections v = none →
      alGet (disconnectAux f ok now c u s).connections v = none := by
  intro f c u s hv
  refine disconnectAux_pres (P := fun st => alGet st.connections v = none)
    (fun _ => True) (fun _ _ => trivial)
    (fun c' n st h => by show alGet (metaTouch c' n st).connections _ = none; rw [metaTouch_connections]; exact h)
    (fun u' c' st _ hcm _ h => by
      show alGet (alErase st.connections u') v = none
      by_cases hvu : v = u'
      · subst hvu
        rw [connsOf, h] at hcm
        simp at hcm
      · rw [alGet_alErase_ne hvu]
        exact h)
    (fun u' c' st _ hcm _ h => by
      show alGet (alSet st.connections u'
        ((connsOf st u').filter (fun x => decide (x ≠ c')))) v = none
      by_cases hvu : v = u'
      · subst hvu
        rw [connsOf, h] at hcm
        simp at hcm
      · rw [alGet_alSet_ne hvu]
        exact h)
    (fun c' st h => h)
    (fun u' st h => h)
    f c u s trivial hv

/-- The disconnect cascade keeps connections keys duplicate-free. -/
theorem disconnectAux_keysNodup {ok : ConnId → Bool} {now : Nat} :
    ∀ (f : Nat) (c : ConnId) (u : UserId) (s : ManagerState),
      (s.connections.map Prod.fst).Nodup →
      ((disconnectAux f ok now c u s).connections.map Prod.fst).Nodup := by
  intro f c u s hn
  refine disconnectAux_pres
    (P := fun st => (st.connections.map Prod.fst).Nodup)
    (fun _ => True) (fun _ _ => trivial)
    (fun c' n st h => by show ((metaTouch c' n st).connections.map Prod.fst).Nodup; rw [metaTouch_connections]; exact h)
    (fun u' c' st _ _ _ h =>
      h.sublist (alErase_keys_sublist u' st.connections))
    (fun u' c' st _ _ _ h => alSet_keys_nodup _ h)
    (fun c' st h => h)
    (fun u' st h => h)
    f c u s trivial hn

/-- The disconnect cascade never adds a connection: once a connection id is
absent from a user with duplicate-free keys, it stays absent. -/
theorem disconnectAux_notMem {ok : ConnId → Bool} {now : Nat} {v : UserId}
    {d : ConnId} :
    ∀ (f : Nat) (c : ConnId) (u : UserId) (s : ManagerState),
      (s.connections.map Prod.fst).Nodup → d ∉ connsOf s v →
      d ∉ connsOf (disconnectAux f ok now c u s) v := by
  intro f c u s hn hd
  refine (disconnectAux_pres
    (P := fun st => (st.connections.map Prod.fst).Nodup ∧ d ∉ connsOf st v)
    (fun _ => True) (fun _ _ => trivial)
    (fun c' n st h => by
      refine ⟨?_, ?_⟩
      · rw [metaTouch_connections]; exact h.1
      · rw [connsOf, metaTouch_connections]; exact h.2)
    (fun u' c' st _ hcm _ h => by
      refine ⟨h.1.sublist (alErase_keys_sublist u' st.connections), ?_⟩
      show d ∉ connsOf (update_presence u' false now
        { st with connections := alErase st.connections u' }) v
      by_cases hvu : v = u'
      · subst hvu
        show d ∉ (alGet (alErase st.connections v) v).getD []
        rw [alGet_alErase_self h.1]
        simp
      · show d ∉ (alGet (alErase st.connections u') v).getD []
        rw [alGet_alErase_ne hvu]
        exact h.2)
    (fun u' c' st _ hcm _ h => by
      refine ⟨alSet_keys_nodup _ h.1, ?_⟩
      by_cases hvu : v = u'
      · subst hvu
        show d ∉ (alGet (alSet st.connections v
          ((connsOf st v).filter (fun x => decide (x ≠ c')))) v).getD []
        rw [alGet_alSet_self]
        intro hmem
        exact h.2 (List.mem_filter.mp hmem).1
      · show d ∉ (alGet (alSet st.connections u'
          ((connsOf st u').filter (fun x => decide (x ≠ c')))) v).getD []
        rw [alGet_alSet_ne hvu]
        exact h.2)
    (fun c' st h => h)
    (fun u' st h => h)
    f c u s trivial ⟨hn, hd⟩).2

/-- A live connection (one whose sends succeed) of any user survives the
disconnect cascade started on a different connection id. -/
theorem disconnectAux_okKeep {ok : ConnId → Bool} {now : Nat} {v : UserId}
    {d : ConnId} (hd : ok d = true) :
    ∀ (f : Nat) (c : ConnId) (u : UserId) (s : ManagerState),
      c ≠ d → d ∈ connsOf s v → d ∈ connsOf (disconnectAux f ok now c u s) v := by
  intro f c u s hcd hmem
  refine disconnectAux_pres (P := fun st => d ∈ connsOf st v)
    (A := fun c' => c' ≠ d)
    (fun c2 h2 heq => by rw [heq, hd] at h2; cases h2)
    (fun c' n st h => by show _ ∈ connsOf (metaTouch c' n st) _; rw [connsOf, metaTouch_connections]; exact h)
    (fun u' c' st hA hcm he h => by
      by_cases hvu : v = u'
      · subst hvu
        exfalso
        have hdf : d ∈ (connsOf st v).filter (fun x => decide (x ≠ c')) :=
          List.mem_filter.mpr ⟨h, by simpa using Ne.symm hA⟩
        rw [List.isEmpty_iff] at he
        rw [he] at hdf
        simp at hdf
      · show d ∈ (alGet (alErase st.connections u') v).getD []
        rw [alGet_alErase_ne hvu]
        exact h)
    (fun u' c' st hA hcm he h => by
      by_cases hvu : v = u'
      · subst hvu
        show d ∈ (alGet (alSet st.connections v
          ((connsOf st v).filter (fun x => decide (x ≠ c')))) v).getD []
        rw [alGet_alSet_self]
        exact List.mem_filter.mpr ⟨h, by simpa using Ne.symm hA⟩
      · show d ∈ (alGet (alSet st.connections u'
          ((connsOf st u').filter (fun x => decide (x ≠ c')))) v).getD []
        rw [alGet_alSet_ne hvu]
        exact h)
    (fun c' st h => h)
    (fun u' st h => h)
    f c u s hcd hmem

/-- The presence record of a user without a connections key is untouched by
the disconnect cascade. -/
theorem disconnectAux_presFrozen {ok : ConnId → Bool} {now : Nat}
    {v : UserId} :
    ∀ (f : Nat) (c : ConnId) (u : UserId) (s : ManagerState),
      alGet s.connections v = none →
      (disconnectAux f ok now c u s).presence v = s.presence v := by
  intro f c u s hv
  refine (disconnectAux_pres
    (P := fun st => st.presence v = s.presence v ∧ alGet st.connections v = none)
    (fun _ => True) (fun _ _ => trivial)
    (fun c' n st h => by
      refine ⟨?_, ?_⟩
      · rw [metaTouch_presence]; exact h.1
      · rw [metaTouch_connections]; exact h.2)
    (fun u' c' st _ hcm _ h => by
      have hvu : v ≠ u' := by
        intro heq
        rw [heq] at h
        rw [connsOf, h.2] at hcm
        simp at hcm
      refine ⟨?_, ?_⟩
      · show fnSet st.presence u' _ v = s.presence v
        rw [fnSet, if_neg hvu]
        exact h.1
      · show alGet (alErase st.connections u') v = none
        rw [alGet_alErase_ne hvu]
        exact h.2)
    (fun u' c' st _ hcm _ h => by
      have hvu : v ≠ u' := by
        intro heq
        rw [heq] at h
        rw [connsOf, h.2] at hcm
        simp at hcm
      refine ⟨h.1, ?_⟩
      show alGet (alSet st.connections u'
        ((connsOf st u').filter (fun x => decide (x ≠ c')))) v = none
      rw [alGet_alSet_ne hvu]
      exact h.2)
    (fun c' st h => h)
    (fun u' st h => h)
    f c u s trivial ⟨rfl, hv⟩).1

/-! ## Direct facts about one disconnect call -/

theorem connsOf_dcPhase2 (c : ConnId) (st : ManagerState) (u : UserId) :
    connsOf (dcPhase2 c st) u = connsOf st u := rfl

theorem connsOf_dcPhase3 (u' u : UserId) (st : ManagerState) :
    connsOf (dcPhase3 u' st) u = connsOf st u := by
  unfold dcPhase3
  split <;> rfl

theorem rooms_dcPhase2 (c : ConnId) (st : ManagerState) :
    (dcPhase2 c st).rooms = st.rooms := rfl

/-- `disconnect` pops the connection's metadata entry in every case. -/
theorem disconnectAux_meta_popped {ok : ConnId → Bool} {now : Nat}
    (f : Nat) (c : ConnId) (u : UserId) (s : ManagerState) :
    (disconnectAux (f + 1) ok now c u s).connection_meta c = none := by
  rw [disconnectAux]
  unfold disconnectBody dcPhase3
  split
  · show (dcPhase2 c _).connection_meta c = none
    simp [dcPhase2, fnPop]
  · simp [dcPhase2, fnPop]

/-- `disconnect` pops the connection's heartbeat entry in every case. -/
theorem disconnectAux_hb_popped {ok : ConnId → Bool} {now : Nat}
    (f : Nat) (c : ConnId) (u : UserId) (s : ManagerState) :
    (disconnectAux (f + 1) ok now c u s).heartbeats c = none := by
  rw [disconnectAux]
  unfold disconnectBody dcPhase3
  split
  · show (dcPhase2 c _).heartbeats c = none
    simp [dcPhase2, fnPop]
  · simp [dcPhase2, fnPop]

/-- After a disconnect call, the disconnected id is gone from the user's
connection set (duplicate-free keys as in any dict-backed state). -/
theorem disconnectAux_removed {ok : ConnId → Bool} {now : Nat}
    (f : Nat) (c : ConnId) (u : UserId) (s : ManagerState)
    (hn : (s.connections.map Prod.fst).Nodup) :
    c ∉ connsOf (disconnectAux (f + 1) ok now c u s) u := by
  rw [disconnectAux]
  unfold disconnectBody
  rw [connsOf_dcPhase3, connsOf_dcPhase2]
  unfold dcPhase1
  by_cases hcm : c ∈ connsOf s u
  · rw [if_pos hcm]
    by_cases he : ((connsOf s u).filter (fun x => decide (x ≠ c))).isEmpty = true
    · rw [if_pos he]
      have hkey : alGet (update_presence u false now
          { s with connections := alErase s.connections u }).connections u = none := by
        show alGet (alErase s.connections u) u = none
        exact alGet_alErase_self hn
      have hkey2 : alGet (broadcastPresenceWith
          (fun c2 u2 st => disconnectAux f ok now c2 u2 st) ok now u
          (update_presence u false now
            { s with connections := alErase s.connections u })).connections u
          = none := by
        refine broadcastPresenceWith_pres
          (P := fun st => alGet st.connections u = none)
          (fun c' n st h => by
            show alGet (metaTouch c' n st).connections u = none
            rw [metaTouch_connections]; exact h)
          (fun c2 u2 st _ h => disconnectAux_keysNone f c2 u2 st h)
          hkey
      rw [connsOf, hkey2]
      simp
    · rw [if_neg he]
      show c ∉ (alGet (alSet s.connections u
        ((connsOf s u).filter (fun x => decide (x ≠ c)))) u).getD []
      rw [alGet_alSet_self]
      intro hmem
      have := (List.mem_filter.mp hmem).2
      simp at this
  · rw [if_neg hcm]
    exact hcm

/-! ## WFInv preservation by every public operation -/

theorem WFInv_connect_core {u : UserId} {now k : Nat} {conns2 : List ConnId}
    {s t : ManagerState}
    (hc : t.connections = alSet s.connections u conns2)
    (hr : t.rooms = s.rooms)
    (hp : t.presence = fnSet s.presence u ⟨true, now, k⟩)
    (hne : conns2 ≠ []) (hw : WFInv s) : WFInv t := by
  obtain ⟨h1, h2, h3, h4, h5, h6⟩ := hw
  refine ⟨?_, ?_, ?_, ?_, ?_, ?_⟩
  · rw [hc]
    exact alSet_keys_nodup _ h1
  · rw [hr]
    exact h2
  · intro p hp2
    rw [hc] at hp2
    rcases mem_alSet hp2 with hp3 | hp3
    · exact h3 p hp3
    · rw [hp3]
      exact hne
  · intro p hp2
    rw [hr] at hp2
    exact h4 p hp2
  · intro v pr hpr
    rw [hp, fnSet] at hpr
    rw [hc]
    by_cases hv : v = u
    · subst hv
      rw [if_pos rfl] at hpr
      have := (Option.some.inj hpr).symm
      subst this
      rw [alGet_alSet_self]
      simp
    · rw [if_neg hv] at hpr
      rw [alGet_alSet_ne hv]
      exact h5 v pr hpr
  · intro v l hl
    rw [hc] at hl
    rw [hp]
    by_cases hv : v = u
    · subst hv
      exact ⟨_, by rw [fnSet, if_pos rfl]⟩
    · rw [alGet_alSet_ne hv] at hl
      obtain ⟨pr, hpr⟩ := h6 v l hl
      exact ⟨pr, by rw [fnSet, if_neg hv]; exact hpr⟩

theorem connect_WFInv {ok : ConnId → Bool} {now : Nat} {u : UserId}
    {c : ConnId} {s : ManagerState} (h : WFInv s) :
    WFInv (connect ok now u c s) := by
  have hne : (if c ∈ connsOf s u then connsOf s u else connsOf s u ++ [c]) ≠ [] := by
    split
    · rename_i hin
      intro hnil
      rw [hnil] at hin
      exact List.not_mem_nil c hin
    · simp
  have hreg : WFInv (update_presence u true now
      { s with
          connections := (alSet s.connections u
            (if c ∈ connsOf s u then connsOf s u else connsOf s u ++ [c])),
          connection_meta := fnSet s.connection_meta c ⟨u, now, now⟩,
          heartbeats := fnSet s.heartbeats c now }) :=
    WFInv_connect_core rfl rfl rfl hne h
  unfold connect
  split
  · exact broadcastPresenceWith_pres (fun c' n st hw => WFInv_metaTouch hw)
      (fun c2 u2 st _ hw => disconnectAux_WFInv _ c2 u2 st hw) hreg
  · exact hreg

theorem disconnect_WFInv {ok : ConnId → Bool} {now : Nat} {c : ConnId}
    {u : UserId} {s : ManagerState} (h : WFInv s) :
    WFInv (disconnect ok now c u s) :=
  disconnectAux_WFInv _ c u s h

theorem send_to_user_WFInv {ok : ConnId → Bool} {now : Nat} {u : UserId}
    {s : ManagerState} (h : WFInv s) : WFInv (send_to_user ok now u s).2 :=
  sendWith_pres (fun c' n st hw => WFInv_metaTouch hw)
    (fun c2 u2 st _ hw => disconnectAux_WFInv _ c2 u2 st hw) h

theorem broadcast_to_room_WFInv {ok : ConnId → Bool} {now : Nat} {r : RoomId}
    {ex : Option UserId} {s : ManagerState} (h : WFInv s) :
    WFInv (broadcast_to_room ok now r ex s) :=
  broadcastRoomWith_pres (fun c' n st hw => WFInv_metaTouch hw)
    (fun c2 u2 st _ hw => disconnectAux_WFInv _ c2 u2 st hw) h

theorem join_room_WFInv {r : RoomId} {u : UserId} {s : ManagerState}
    (h : WFInv s) : WFInv (join_room r u s) := by
  obtain ⟨h1, h2, h3, h4, h5, h6⟩ := h
  refine ⟨h1, ?_, h3, ?_, h5, h6⟩
  · exact alSet_keys_nodup _ h2
  · intro p hp
    rcases mem_alSet hp with hp2 | hp2
    · exact h4 p hp2
    · rw [hp2]
      exact setAdd_ne_nil _ _

theorem leave_room_WFInv {r : RoomId} {u : UserId} {s : ManagerState}
    (h : WFInv s) : WFInv (leave_room r u s) := by
  unfold leave_room
  cases hm : alGet s.rooms r with
  | none => exact h
  | some m =>
      dsimp only
      obtain ⟨h1, h2, h3, h4, h5, h6⟩ := h
      by_cases he : (m.filter (fun x => decide (x ≠ u))).isEmpty = true
      · rw [if_pos he]
        refine ⟨h1, ?_, h3, ?_, h5, h6⟩
        · exact h2.sublist (alErase_keys_sublist r s.rooms)
        · intro p hp
          exact h4 p ((alErase_sublist r s.rooms).subset hp)
      · rw [if_neg he]
        refine ⟨h1, ?_, h3, ?_, h5, h6⟩
        · exact alSet_keys_nodup _ h2
        · intro p hp
          rcases mem_alSet hp with hp2 | hp2
          · exact h4 p hp2
          · rw [hp2]
            intro hnil
            exact he (List.isEmpty_iff.mpr hnil)

theorem handle_typing_WFInv {ok : ConnId → Bool} {now : Nat} {r : RoomId}
    {u : UserId} {b : Bool} {s : ManagerState} (h : WFInv s) :
    WFInv (handle_typing ok now r u b s) := by
  unfold handle_typing
  apply broadcastRoomWith_pres (fun c' n st hw => WFInv_metaTouch hw)
    (fun c2 u2 st _ hw => disconnectAux_WFInv _ c2 u2 st hw)
  split
  · exact WFInv_of_parts rfl rfl rfl h
  · cases hx : alGet s.typing_status r with
    | none => exact h
    | some inner => exact WFInv_of_parts rfl rfl rfl h

theorem handle_heartbeat_WFInv {now : Nat} {c : ConnId} {s : ManagerState}
    (h : WFInv s) : WFInv (handle_heartbeat now c s) := by
  unfold handle_heartbeat
  cases hx : s.connection_meta c with
  | none => exact h
  | some m => exact WFInv_of_parts rfl rfl rfl h

theorem sweepTypingAux_pres {P : ManagerState → Prop}
    {dc : ConnId → UserId → ManagerState → ManagerState} {ok : ConnId → Bool}
    {now : Nat}
    (hmt : ∀ c' n st, P st → P (metaTouch c' n st))
    (hdc : ∀ c2 u2 st, ok c2 = false → P st → P (dc c2 u2 st))
    (htyp : ∀ (st : ManagerState) X, P st → P { st with typing_status := X }) :
    ∀ (L : List RoomId) (s : ManagerState), P s →
      P (sweepTypingAux dc ok now L s).2
  | [], _, hs => hs
  | r :: rest, s, hs =>
      sweepTypingAux_pres hmt hdc htyp rest _
        (foldlPresMem _ _
          (fun uid _ st hst =>
            broadcastRoomWith_pres hmt hdc (htyp _ _ hst)) hs)

/-- Unfolding equation for `sweepTypingAux` on a cons cell. -/
theorem sweepTypingAux_cons (dc : ConnId → UserId → ManagerState → ManagerState)
    (ok : ConnId → Bool) (now : Nat) (r : RoomId) (rest : List RoomId)
    (s : ManagerState) :
    sweepTypingAux dc ok now (r :: rest) s =
      ((expiredOf now ((alGet s.typing_status r).getD [])).map (fun uid => (r, uid))
          ++ (sweepTypingAux dc ok now rest
            ((expiredOf now ((alGet s.typing_status r).getD [])).foldl
              (sweepRoomStep dc ok now r) s)).1,
        (sweepTypingAux dc ok now rest
          ((expiredOf now ((alGet s.typing_status r).getD [])).foldl
            (sweepRoomStep dc ok now r) s)).2) := rfl

theorem sweep_typing_WFInv {ok : ConnId → Bool} {now : Nat} {s : ManagerState}
    (h : WFInv s) : WFInv (sweep_typing ok now s).2 :=
  sweepTypingAux_pres (fun c' n st hw => WFInv_metaTouch hw)
    (fun c2 u2 st _ hw => disconnectAux_WFInv _ c2 u2 st hw)
    (fun st X hw => WFInv_of_parts rfl rfl rfl hw) _ s h

theorem initState_WFInv : WFInv initState := by
  refine ⟨?_, ?_, ?_, ?_, ?_, ?_⟩
  · simp [initState]
  · simp [initState]
  · intro p hp
    simp [initState] at hp
  · intro p hp
    simp [initState] at hp
  · intro v pr hpr
    cases hpr
  · intro v l hl
    simp [initState, alGet] at hl

/-- Every reachable manager state satisfies the invariant. -/
theorem reach_WFInv {s : ManagerState} (h : Reachable s) : WFInv s := by
  induction h with
  | init => exact initState_WFInv
  | of_connect _ ih => exact connect_WFInv ih
  | of_disconnect _ ih => exact disconnect_WFInv ih
  | of_send _ ih => exact send_to_user_WFInv ih
  | of_broadcast _ ih => exact broadcast_to_room_WFInv ih
  | of_join _ ih => exact join_room_WFInv ih
  | of_leave _ ih => exact leave_room_WFInv ih
  | of_typing _ ih => exact handle_typing_WFInv ih
  | of_heartbeat _ ih => exact handle_heartbeat_WFInv ih
  | of_sweep _ ih => exact sweep_typing_WFInv ih

/-! ## Disconnecting the last connection -/

/-- When the user's only connection is disconnected at time `t`, the
presence record becomes offline with `last_seen = t` and count 0, and the
presence broadcast cascade cannot change it again. -/
theorem disconnect_last_presence {ok : ConnId → Bool} {now : Nat}
    {c : ConnId} {u : UserId} {s : ManagerState}
    (hn : (s.connections.map Prod.fst).Nodup)
    (hg : alGet s.connections u = some [c]) :
    (disconnect ok now c u s).presence u = some ⟨false, now, 0⟩ := by
  unfold disconnect
  rw [show 4 * totalConns s + 8 = (4 * totalConns s + 7) + 1 from rfl]
  rw [disconnectAux]
  unfold disconnectBody
  have hpres23 : ∀ st : ManagerState,
      (dcPhase3 u (dcPhase2 c st)).presence = st.presence := by
    intro st
    unfold dcPhase3 dcPhase2
    split <;> rfl
  rw [hpres23]
  unfold dcPhase1
  have hcm : c ∈ connsOf s u := by
    rw [connsOf, hg]
    simp
  rw [if_pos hcm]
  have hfe : ((connsOf s u).filter (fun x => decide (x ≠ c))).isEmpty = true := by
    rw [connsOf, hg]
    simp
  rw [if_pos hfe]
  have hkeyA : alGet (update_presence u false now
      { s with connections := alErase s.connections u }).connections u = none := by
    show alGet (alErase s.connections u) u = none
    exact alGet_alErase_self hn
  have hbase : (update_presence u false now
      { s with connections := alErase s.connections u }).presence u
      = some ⟨false, now, 0⟩ := by
    show fnSet s.presence u
      ⟨false, now,
        (connsOf { s with connections := alErase s.connections u } u).length⟩ u
      = some ⟨false, now, 0⟩
    have hz : connsOf { s with connections := alErase s.connections u } u = [] := by
      show (alGet (alErase s.connections u) u).getD [] = []
      rw [alGet_alErase_self hn]
      rfl
    rw [fnSet, if_pos rfl, hz]
    rfl
  exact (broadcastPresenceWith_pres
    (P := fun st => st.presence u = some ⟨false, now, 0⟩ ∧
      alGet st.connections u = none)
    (fun c' n st h => by
      refine ⟨?_, ?_⟩
      · show (metaTouch c' n st).presence u = _
        rw [metaTouch_presence]
        exact h.1
      · show alGet (metaTouch c' n st).connections u = none
        rw [metaTouch_connections]
        exact h.2)
    (fun c2 u2 st h2 h => by
      refine ⟨?_, ?_⟩
      · show (disconnectAux _ ok now c2 u2 st).presence u = _
        rw [disconnectAux_presFrozen _ c2 u2 st h.2]
        exact h.1
      · exact disconnectAux_keysNone _ c2 u2 st h.2)
    ⟨hbase, hkeyA⟩).1

/-! ## Claim C4 -/

/-- C4: in every reachable state, a presence record's online flag is true
iff the identity's count of registered connections is positive; after
registering, the flag is true; disconnecting the last connection at time
`t` makes it false with `last_seen = t`. -/
theorem claim_C4_presence_online_iff {s : ManagerState} (hs : Reachable s) :
    (∀ u pr, s.presence u = some pr →
      (pr.is_online = true ↔ 0 < (connsOf s u).length)) ∧
    (∀ u l, alGet s.connections u = some l →
      ∃ pr, s.presence u = some pr ∧ pr.is_online = true) ∧
    (∀ ok t c u, alGet s.connections u = some [c] →
      (disconnect ok t c u s).presence u = some ⟨false, t, 0⟩) := by
  obtain ⟨h1, h2, h3, h4, h5, h6⟩ := reach_WFInv hs
  refine ⟨?_, ?_, ?_⟩
  · intro u pr hpr
    rw [h5 u pr hpr]
    constructor
    · intro hne
      cases hg : alGet s.connections u with
      | none => exact absurd hg hne
      | some l =>
          rw [connsOf, hg]
          simpa using List.length_pos.mpr (h3 (u, l) (alGet_mem hg))
    · intro hlen hnone
      rw [connsOf, hnone] at hlen
      simp at hlen
  · intro u l hl
    obtain ⟨pr, hpr⟩ := h6 u l hl
    refine ⟨pr, hpr, ?_⟩
    rw [h5 u pr hpr, hl]
    simp
  · intro ok t c u hg
    exact disconnect_last_presence h1 hg

/-- Witness for C4: register one connection for identity 7, observe the
online flag; unregister it at time 5 and observe offline, `last_seen = 5`. -/
theorem claim_C4_witness :
    ((⟨true, 0, 1⟩ : PresenceInfo).is_online = true ↔
      0 < (connsOf (connect okAll 0 7 "c1" initState) 7).length) ∧
    (disconnect okAll 5 "c1" 7 (connect okAll 0 7 "c1" initState)).presence 7
      = some ⟨false, 5, 0⟩ :=
  ⟨(claim_C4_presence_online_iff
      (Reachable.of_connect Reachable.init)).1 7 ⟨true, 0, 1⟩ (by decide),
   (claim_C4_presence_online_iff
      (Reachable.of_connect Reachable.init)).2.2 okAll 5 "c1" 7 (by decide)⟩

/-! ## Claim C5 -/

/-- C5: in every reachable state no room maps to an empty member set, and a
`leave_room` removing the final member deletes the room's entry entirely
(afterwards `get_room_members` returns the empty set and the index holds no
entry for the room). -/
theorem claim_C5_empty_room_deleted {s : ManagerState} (hs : Reachable s) :
    (∀ r m, alGet s.rooms r = some m → m ≠ []) ∧
    (∀ r u m, alGet s.rooms r = some m → u ∈ m →
      m.filter (fun x => decide (x ≠ u)) = [] →
      alGet (leave_room r u s).rooms r = none ∧
      get_room_members (leave_room r u s) r = []) := by
  obtain ⟨h1, h2, h3, h4, h5, h6⟩ := reach_WFInv hs
  refine ⟨?_, ?_⟩
  · intro r m hm
    exact h4 (r, m) (alGet_mem hm)
  · intro r u m hm hu hf
    have he : (m.filter (fun x => decide (x ≠ u))).isEmpty = true :=
      List.isEmpty_iff.mpr hf
    unfold leave_room
    simp only [hm]
    rw [if_pos he]
    constructor
    · show alGet (alErase s.rooms r) r = none
      exact alGet_alErase_self h2
    · show (alGet (alErase s.rooms r) r).getD [] = []
      rw [alGet_alErase_self h2]
      rfl

/-- Witness for C5: user 1 is the only member of room `"r"`; after leaving,
the members query returns the empty set and the room entry is gone. -/
theorem claim_C5_witness :
    alGet (leave_room "r" 1 stOneConnInRoom).rooms "r" = none ∧
    get_room_members (leave_room "r" 1 stOneConnInRoom) "r" = [] :=
  (claim_C5_empty_room_deleted
    (Reachable.of_join (Reachable.of_connect Reachable.init))).2 "r" 1 [1]
    (by decide) (by decide) (by decide)

/-! ## Claim C10 -/

/-- C10: in every reachable state, every key of the connections map has a
nonempty connection set; `is_user_online` is equivalent to being a key of
the map; `get_online_users` returns (without duplicates) exactly the
identities with at least one live connection; and the stats field
`total_users_online` equals their number. -/
theorem claim_C10_online_users_exact {s : ManagerState} (hs : Reachable s) :
    (∀ u l, alGet s.connections u = some l → l ≠ []) ∧
    (∀ u, is_user_online s u = true ↔ alGet s.connections u ≠ none) ∧
    (∀ u, u ∈ get_online_users s ↔ 0 < (connsOf s u).length) ∧
    (get_online_users s).Nodup ∧
    (get_connection_stats s).total_users_online = (get_online_users s).length := by
  obtain ⟨h1, h2, h3, h4, h5, h6⟩ := reach_WFInv hs
  refine ⟨?_, ?_, ?_, h1, ?_⟩
  · intro u l hl
    exact h3 (u, l) (alGet_mem hl)
  · intro u
    unfold is_user_online
    constructor
    · intro hb hnone
      rw [hnone] at hb
      simp at hb
    · intro hne
      cases hg : alGet s.connections u with
      | none => exact absurd hg hne
      | some l =>
          have hlp := List.length_pos.mpr (h3 (u, l) (alGet_mem hg))
          simp [hg, connsOf, hlp]
  · intro u
    constructor
    · intro hu
      have hne : alGet s.connections u ≠ none :=
        fun hn => (alGet_eq_none_iff.mp hn) hu
      cases hg : alGet s.connections u with
      | none => exact absurd hg hne
      | some l =>
          rw [connsOf, hg]
          simpa using List.length_pos.mpr (h3 (u, l) (alGet_mem hg))
    · intro hlen
      by_contra hu
      have hn : alGet s.connections u = none := alGet_eq_none_iff.mpr hu
      rw [connsOf, hn] at hlen
      simp at hlen
  · simp [get_connection_stats, get_online_users]

/-- Witness for C10 at the state with identity 1 connected once. -/
theorem claim_C10_witness :
    (is_user_online (connect okAll 0 1 "c1" initState) 1 = true ↔
      alGet (connect okAll 0 1 "c1" initState).connections 1 ≠ none) ∧
    (1 ∈ get_online_users (connect okAll 0 1 "c1" initState) ↔
      0 < (connsOf (connect okAll 0 1 "c1" initState) 1).length) :=
  ⟨(claim_C10_online_users_exact (Reachable.of_connect Reachable.init)).2.1 1,
   (claim_C10_online_users_exact (Reachable.of_connect Reachable.init)).2.2.1 1⟩

/-! ## Claim C1: the send_to_user partial-failure contract -/

theorem filter_length_pos_iff {α : Type} {p : α → Bool} {l : List α} :
    0 < (l.filter p).length ↔ ∃ a ∈ l, p a = true := by
  rw [List.length_pos]
  constructor
  · intro h
    match hx : l.filter p with
    | [] => exact absurd hx h
    | a :: t =>
        have ha : a ∈ l.filter p := by
          rw [hx]
          exact List.mem_cons_self _ _
        exact ⟨a, (List.mem_filter.mp ha).1, (List.mem_filter.mp ha).2⟩
  · rintro ⟨a, hal, hap⟩ hnil
    have ha : a ∈ l.filter p := List.mem_filter.mpr ⟨hal, hap⟩
    rw [hnil] at ha
    simp at ha

theorem foldl_metaTouch_connections {now : Nat} :
    ∀ (l : List ConnId) (s : ManagerState),
      (l.foldl (fun st c => metaTouch c now st) s).connections = s.connections
  | [], _ => rfl
  | a :: t, s => by
      rw [List.foldl_cons, foldl_metaTouch_connections t,
        metaTouch_connections]

/-- `dcFresh` (a `disconnect` with freshly computed fuel) removes its
connection id. -/
theorem dcFresh_removed {ok : ConnId → Bool} {now : Nat} (c : ConnId)
    (u : UserId) (st : ManagerState)
    (hn : (st.connections.map Prod.fst).Nodup) :
    c ∉ connsOf (dcFresh ok now c u st) u :=
  disconnectAux_removed (4 * totalConns st + 7) c u st hn

theorem dcFresh_keysNodup {ok : ConnId → Bool} {now : Nat} (c : ConnId)
    (u : UserId) (st : ManagerState)
    (hn : (st.connections.map Prod.fst).Nodup) :
    ((dcFresh ok now c u st).connections.map Prod.fst).Nodup :=
  disconnectAux_keysNodup _ c u st hn

theorem dcFresh_notMem {ok : ConnId → Bool} {now : Nat} {v : UserId}
    {d : ConnId} (c : ConnId) (u : UserId) (st : ManagerState)
    (hn : (st.connections.map Prod.fst).Nodup) (hd : d ∉ connsOf st v) :
    d ∉ connsOf (dcFresh ok now c u st) v :=
  disconnectAux_notMem _ c u st hn hd

theorem dcFresh_okKeep {ok : ConnId → Bool} {now : Nat} {v : UserId}
    {d : ConnId} (hok : ok d = true) (c : ConnId) (u : UserId)
    (st : ManagerState) (hcd : c ≠ d) (hd : d ∈ connsOf st v) :
    d ∈ connsOf (dcFresh ok now c u st) v :=
  disconnectAux_okKeep hok _ c u st hcd hd

/-- Folding `disconnect` over a list of connection ids of user `u` keeps a
connection out of `u`'s set once gone. -/
theorem foldl_dcFresh_keepsOut {ok : ConnId → Bool} {now : Nat} {u : UserId}
    {d : ConnId} (L : List ConnId) (st : ManagerState)
    (hn : (st.connections.map Prod.fst).Nodup) (hd : d ∉ connsOf st u) :
    d ∉ connsOf (L.foldl (fun st2 c2 => dcFresh ok now c2 u st2) st) u :=
  (foldlPresMem (P := fun st2 => ((st2.connections.map Prod.fst).Nodup ∧
      d ∉ connsOf st2 u)) L st
    (fun c2 _ st2 h => ⟨dcFresh_keysNodup c2 u st2 h.1,
      dcFresh_notMem c2 u st2 h.1 h.2⟩)
    ⟨hn, hd⟩).2

/-- Folding `disconnect` over every id in `L` removes each of them from
`u`'s connection set. -/
theorem foldl_dcFresh_removes_all {ok : ConnId → Bool} {now : Nat}
    {u : UserId} :
    ∀ (L : List ConnId) (st : ManagerState),
      (st.connections.map Prod.fst).Nodup →
      ∀ d ∈ L, d ∉ connsOf (L.foldl (fun st2 c2 => dcFresh ok now c2 u st2) st) u
  | [], _, _ => by simp
  | a :: L, st, hn => by
      intro d hd
      rw [List.foldl_cons]
      have hnd : ((dcFresh ok now a u st).connections.map Prod.fst).Nodup :=
        dcFresh_keysNodup a u st hn
      rcases List.mem_cons.mp hd with rfl | hdL
      · exact foldl_dcFresh_keepsOut L _ hnd (dcFresh_removed d u st hn)
      · exact foldl_dcFresh_removes_all L _ hnd d hdL

/-- Folding `disconnect` over dead connection ids keeps every live
connection in place. -/
theorem foldl_dcFresh_okKeep {ok : ConnId → Bool} {now : Nat} {u : UserId}
    {d : ConnId} (hok : ok d = true) (L : List ConnId) (st : ManagerState)
    (hL : ∀ c2 ∈ L, ok c2 = false) (hd : d ∈ connsOf st u) :
    d ∈ connsOf (L.foldl (fun st2 c2 => dcFresh ok now c2 u st2) st) u :=
  foldlPresMem (P := fun st2 => d ∈ connsOf st2 u) L st
    (fun c2 hc2 st2 h => by
      have hne : c2 ≠ d := by
        intro heq
        have h2 := hL c2 hc2
        rw [heq] at h2
        rw [h2] at hok
        cases hok
      exact dcFresh_okKeep hok c2 u st2 hne h)
    hd

/-- C1: for an identity with at least one registered connection and any
payload, `send_to_user` returns true iff at least one connection accepted
the send; every connection whose send failed is unregistered (absent from
the identity's connection set afterwards); every connection whose send
succeeded remains registered. -/
theorem claim_C1_send_to_identity {ok : ConnId → Bool} {now : Nat}
    {u : UserId} {s : ManagerState}
    (hn : (s.connections.map Prod.fst).Nodup) (hne : connsOf s u ≠ []) :
    ((send_to_user ok now u s).1 = true ↔ ∃ c ∈ connsOf s u, ok c = true) ∧
    (∀ c ∈ connsOf s u, ok c = false →
      c ∉ connsOf (send_to_user ok now u s).2 u) ∧
    (∀ c ∈ connsOf s u, ok c = true →
      c ∈ connsOf (send_to_user ok now u s).2 u) := by
  obtain ⟨conns, hg⟩ : ∃ conns, alGet s.connections u = some conns := by
    cases hx : alGet s.connections u with
    | none => rw [connsOf, hx] at hne; simp at hne
    | some l => exact ⟨l, rfl⟩
  have hcs : connsOf s u = conns := by rw [connsOf, hg]; rfl
  have heq : send_to_user ok now u s =
      (decide (0 < (conns.filter ok).length),
        (conns.filter (fun c => !(ok c))).foldl
          (fun st c => dcFresh ok now c u st)
          ((conns.filter ok).foldl (fun st c => metaTouch c now st) s)) := by
    unfold send_to_user sendWith
    rw [hg]
  have hs1conn :
      ((conns.filter ok).foldl (fun st c => metaTouch c now st) s).connections
        = s.connections := foldl_metaTouch_connections _ s
  have hs1nodup :
      (((conns.filter ok).foldl (fun st c => metaTouch c now st) s).connections.map
        Prod.fst).Nodup := by
    rw [hs1conn]
    exact hn
  have hs1cs :
      connsOf ((conns.filter ok).foldl (fun st c => metaTouch c now st) s) u
        = conns := by
    rw [connsOf, hs1conn]
    exact hcs
  rw [heq, hcs]
  refine ⟨?_, ?_, ?_⟩
  · simp only [decide_eq_true_eq]
    exact filter_length_pos_iff
  · intro c hc hfail
    have hcd : c ∈ conns.filter (fun c2 => !(ok c2)) :=
      List.mem_filter.mpr ⟨hc, by rw [hfail]; rfl⟩
    exact foldl_dcFresh_removes_all _ _ hs1nodup c hcd
  · intro c hc hok
    refine foldl_dcFresh_okKeep hok _ _ ?_ ?_
    · intro c2 hc2
      have := (List.mem_filter.mp hc2).2
      simpa using this
    · rw [hs1cs]
      exact hc

/-- Witness for C1: identity 1 has connections `"c1"` (whose sends fail)
and `"c2"` (live); the send delivers (returns true), `"c1"` is removed and
`"c2"` stays registered. -/
theorem claim_C1_witness :
    (send_to_user okButC1 9 1 stTwoConns).1 = true ∧
    "c1" ∉ connsOf (send_to_user okButC1 9 1 stTwoConns).2 1 ∧
    "c2" ∈ connsOf (send_to_user okButC1 9 1 stTwoConns).2 1 :=
  ⟨(claim_C1_send_to_identity (by decide) (by decide)).1.mpr
      ⟨"c2", by decide, by decide⟩,
   (claim_C1_send_to_identity (by decide) (by decide)).2.1 "c1"
      (by decide) (by decide),
   (claim_C1_send_to_identity (by decide) (by decide)).2.2 "c2"
      (by decide) (by decide)⟩

/-! ## Claim C6: typing signals across disconnect -/

/-- Counterexample to C6 as stated: user 1 is typing in room `"R"`
(expiry 5); after its only connection disconnects (disconnect completes:
the identity is fully unregistered), the typing signal is still present —
disconnect does not clear typing state. -/
theorem claim_C6_counterexample :
    typingOf stTypingInRoom "R" 1 = some 5 ∧
    alGet (disconnect okAll 1 "c" 1 stTypingInRoom).connections 1 = none ∧
    typingOf (disconnect okAll 1 "c" 1 stTypingInRoom) "R" 1 = some 5 := by
  decide

/-- C6 (amended): `disconnect` leaves the typing tracker entirely
unchanged; a disconnected identity's typing signal persists until its
expiry is swept or an explicit stop event clears it. -/
theorem claim_C6_disconnect_preserves_typing (ok : ConnId → Bool) (now : Nat)
    (c : ConnId) (u : UserId) (s : ManagerState) :
    (disconnect ok now c u s).typing_status = s.typing_status :=
  disconnectAux_typing _ c u s

/-! ## Claim C7: room broadcast exclusion -/

/-- Counterexample to C7 as stated: identity 0 is a member of room `"g"`;
`broadcast_to_room` with `exclude_identity = 0` still targets identity 0,
because the handler tests the exclude value for Python truthiness (`if
exclude_user_id and ...`) and `0` is falsy. -/
theorem claim_C7_counterexample :
    0 ∈ get_room_members stRoomWithZero "g" ∧
    0 ∈ broadcastTargets stRoomWithZero "g" (some 0) := by
  decide

/-- C7 (amended): for every truthy excluded identity (`e ≠ 0`),
`broadcast_to_room` invokes `send_to_user` for exactly the members other
than `e`, and it is precisely the fold of `send_to_user` over that target
list. -/
theorem claim_C7_broadcast_excludes_nonzero {s : ManagerState} {r : RoomId}
    {e : UserId} (he : e ≠ 0) :
    (∀ v, v ∈ broadcastTargets s r (some e) ↔
      v ∈ get_room_members s r ∧ v ≠ e) ∧
    (∀ ok now, broadcast_to_room ok now r (some e) s =
      (broadcastTargets s r (some e)).foldl
        (fun st v => (sendWith (dcFresh ok now) ok now v st).2) s) := by
  constructor
  · intro v
    unfold broadcastTargets get_room_members
    cases hm : alGet s.rooms r with
    | none => simp
    | some members =>
        show v ∈ members.filter (fun v2 => !(excludedBy (some e) v2)) ↔
          v ∈ (some members).getD [] ∧ v ≠ e
        rw [List.mem_filter]
        constructor
        · rintro ⟨hv, hb⟩
          refine ⟨hv, ?_⟩
          intro heq
          rw [excludedBy] at hb
          simp [heq, he] at hb
        · rintro ⟨hv, hne⟩
          refine ⟨hv, ?_⟩
          rw [excludedBy]
          simp [hne]
  · intro ok now
    unfold broadcast_to_room broadcastRoomWith broadcastTargets
    cases hm : alGet s.rooms r with
    | none => rfl
    | some members => rfl

/-- Witness for C7 (amended): room `"g"` has members 1, 2, 3; excluding
sender 1 targets member 2 (and not 1), and the broadcast is the fold over
the targets. -/
theorem claim_C7_witness :
    (2 ∈ broadcastTargets stRoomOf3 "g" (some 1) ↔
      2 ∈ get_room_members stRoomOf3 "g" ∧ 2 ≠ 1) ∧
    broadcast_to_room okAll 0 "g" (some 1) stRoomOf3 =
      (broadcastTargets stRoomOf3 "g" (some 1)).foldl
        (fun st v => (sendWith (dcFresh okAll 0) okAll 0 v st).2) stRoomOf3 :=
  ⟨(claim_C7_broadcast_excludes_nonzero (by decide)).1 2,
   (claim_C7_broadcast_excludes_nonzero (by decide)).2 okAll 0⟩

/-! ## Claim C8: membership versus connection state -/

/-- Counterexample to C8 as stated: user 1 (online, member of `"r"`) loses
its only connection; the disconnect removes it from the room — membership
does not survive the identity going offline. -/
theorem claim_C8_counterexample :
    1 ∈ get_room_members stOneConnInRoom "r" ∧
    1 ∉ get_room_members (disconnect okAll 5 "c" 1 stOneConnInRoom) "r" ∧
    alGet (disconnect okAll 5 "c" 1 stOneConnInRoom).rooms "r" = none := by
  decide

theorem not_mem_removeUserRooms_members (u : UserId)
    (l : List (RoomId × List UserId)) (r : RoomId) :
    u ∉ (alGet (removeUserRooms u l) r).getD [] := by
  cases hx : alGet (removeUserRooms u l) r with
  | none => simp
  | some m =>
      simpa using removeUserRooms_not_mem u (alGet_mem hx)

/-- C8 (amended): a disconnect that leaves the identity with at least one
registered connection changes no room membership at all; a disconnect of
the identity's last connection removes it from every room. -/
theorem claim_C8_membership_on_disconnect {ok : ConnId → Bool} {now : Nat}
    {c : ConnId} {u : UserId} {s : ManagerState}
    (hn : (s.connections.map Prod.fst).Nodup) :
    (alGet (disconnect ok now c u s).connections u ≠ none →
      (disconnect ok now c u s).rooms = s.rooms) ∧
    (alGet s.connections u = some [c] →
      ∀ r, u ∉ get_room_members (disconnect ok now c u s) r) := by
  unfold disconnect
  rw [show 4 * totalConns s + 8 = (4 * totalConns s + 7) + 1 from rfl]
  rw [disconnectAux]
  unfold disconnectBody
  constructor
  · unfold dcPhase1
    by_cases hcm : c ∈ connsOf s u
    · rw [if_pos hcm]
      by_cases he : ((connsOf s u).filter (fun x => decide (x ≠ c))).isEmpty = true
      · rw [if_pos he]
        intro hkey
        exfalso
        apply hkey
        have hconn3 : ∀ st : ManagerState,
            alGet (dcPhase3 u (dcPhase2 c st)).connections u
              = alGet st.connections u := by
          intro st
          unfold dcPhase3 dcPhase2
          split <;> rfl
        rw [hconn3]
        refine broadcastPresenceWith_pres
          (P := fun st => alGet st.connections u = none)
          (fun c' n st h => by
            show alGet (metaTouch c' n st).connections u = none
            rw [metaTouch_connections]
            exact h)
          (fun c2 u2 st _ h => disconnectAux_keysNone _ c2 u2 st h)
          (alGet_alErase_self hn)
      · rw [if_neg he]
        intro _
        unfold dcPhase3
        rw [if_neg ?hcond]
        case hcond =>
          show ¬((alGet (alSet s.connections u
            ((connsOf s u).filter (fun x => decide (x ≠ c)))) u).isNone = true)
          rw [alGet_alSet_self]
          simp
        rfl
    · rw [if_neg hcm]
      intro hkey
      unfold dcPhase3
      by_cases h3 : (alGet (dcPhase2 c s).connections u).isNone = true
      · exfalso
        apply hkey
        unfold dcPhase3
        rw [if_pos h3]
        show alGet s.connections u = none
        exact Option.isNone_iff_eq_none.mp h3
      · rw [if_neg h3]
        rfl
  · intro hg r
    have hcm : c ∈ connsOf s u := by
      rw [connsOf, hg]
      simp
    have hfe : ((connsOf s u).filter (fun x => decide (x ≠ c))).isEmpty = true := by
      rw [connsOf, hg]
      simp
    unfold dcPhase1
    rw [if_pos hcm, if_pos hfe]
    have hkeyB : alGet (dcPhase2 c (broadcastPresenceWith
        (fun c2 u2 st => disconnectAux (4 * totalConns s + 7) ok now c2 u2 st)
        ok now u (update_presence u false now
          { s with connections := alErase s.connections u }))).connections u
        = none := by
      show alGet (broadcastPresenceWith
        (fun c2 u2 st => disconnectAux (4 * totalConns s + 7) ok now c2 u2 st)
        ok now u (update_presence u false now
          { s with connections := alErase s.connections u })).connections u = none
      refine broadcastPresenceWith_pres
        (P := fun st => alGet st.connections u = none)
        (fun c' n st h => by
          show alGet (metaTouch c' n st).connections u = none
          rw [metaTouch_connections]
          exact h)
        (fun c2 u2 st _ h => disconnectAux_keysNone _ c2 u2 st h)
        (alGet_alErase_self hn)
    unfold dcPhase3
    rw [if_pos (Option.isNone_iff_eq_none.mpr hkeyB)]
    exact not_mem_removeUserRooms_members u _ r

/-- Witness for C8 (amended): user 1 has connections `"c1"`, `"c2"` and is
a member of `"r"`; disconnecting `"c1"` leaves every room untouched, while
disconnecting the last connection of the single-connection state removes
user 1 from its rooms. -/
theorem claim_C8_witness :
    (disconnect okAll 5 "c1" 1 stTwoConnsInRoom).rooms = stTwoConnsInRoom.rooms ∧
    1 ∉ get_room_members (disconnect okAll 9 "c" 1 stOneConnInRoom) "r" :=
  ⟨(claim_C8_membership_on_disconnect (by decide)).1 (by decide),
   (claim_C8_membership_on_disconnect (by decide)).2 (by decide) "r"⟩

/-! ## Claim C9: idempotent unregister -/

/-- Counterexample to C9 as stated: `"c"` was never registered, yet
`disconnect("c", 5)` on a state where the offline identity 5 is a member
of room `"r"` mutates the state — the room-cleanup block runs on every
disconnect call and removes the offline member. -/
theorem claim_C9_counterexample :
    stOfflineMember.connection_meta "c" = none ∧
    stOfflineMember.heartbeats "c" = none ∧
    (∀ p ∈ stOfflineMember.connections, "c" ∉ p.2) ∧
    alGet stOfflineMember.rooms "r" = some [5] ∧
    disconnect okAll 0 "c" 5 stOfflineMember ≠ stOfflineMember := by
  refine ⟨rfl, rfl, by decide, by decide, ?_⟩
  intro heq
  have h1 : alGet (disconnect okAll 0 "c" 5 stOfflineMember).rooms "r" = none := by
    decide
  rw [heq] at h1
  exact absurd h1 (by decide)

/-- A disconnect call on a connection id absent from the user's set, with
no metadata or heartbeat entry, and whose room-cleanup has nothing to do,
is the identity on states. -/
theorem disconnect_noop {ok : ConnId → Bool} {now : Nat} {c : ConnId}
    {u : UserId} {s : ManagerState}
    (hc : c ∉ connsOf s u)
    (hm : s.connection_meta c = none)
    (hh : s.heartbeats c = none)
    (hr : alGet s.connections u = none → ∀ p ∈ s.rooms, u ∉ p.2) :
    disconnect ok now c u s = s := by
  unfold disconnect
  rw [show 4 * totalConns s + 8 = (4 * totalConns s + 7) + 1 from rfl]
  rw [disconnectAux]
  unfold disconnectBody dcPhase1
  rw [if_neg hc]
  have h2 : dcPhase2 c s = s := by
    unfold dcPhase2
    refine ManagerState.ext rfl rfl rfl rfl ?_ ?_
    · funext x
      simp only [fnPop]
      split
      · rename_i hx
        rw [hx, hh]
      · rfl
    · funext x
      simp only [fnPop]
      split
      · rename_i hx
        rw [hx, hm]
      · rfl
  rw [h2]
  unfold dcPhase3
  by_cases h3 : (alGet s.connections u).isNone = true
  · rw [if_pos h3,
      removeUserRooms_fixpoint u (hr (Option.isNone_iff_eq_none.mp h3))]
  · rw [if_neg h3]

theorem disconnect_meta_none {ok : ConnId → Bool} {now : Nat} (c : ConnId)
    (u : UserId) (s : ManagerState) :
    (disconnect ok now c u s).connection_meta c = none :=
  disconnectAux_meta_popped (4 * totalConns s + 7) c u s

theorem disconnect_hb_none {ok : ConnId → Bool} {now : Nat} (c : ConnId)
    (u : UserId) (s : ManagerState) :
    (disconnect ok now c u s).heartbeats c = none :=
  disconnectAux_hb_popped (4 * totalConns s + 7) c u s

/-- After any disconnect call, if the user has no connections key, it is a
member of no room (the cleanup block guarantees it). -/
theorem disconnect_offline_rooms {ok : ConnId → Bool} {now : Nat}
    {c : ConnId} {u : UserId} {s : ManagerState} :
    alGet (disconnect ok now c u s).connections u = none →
    ∀ p ∈ (disconnect ok now c u s).rooms, u ∉ p.2 := by
  unfold disconnect
  rw [show 4 * totalConns s + 8 = (4 * totalConns s + 7) + 1 from rfl]
  rw [disconnectAux]
  unfold disconnectBody dcPhase3
  by_cases h3 : (alGet (dcPhase2 c (dcPhase1
      (fun c2 u2 st => disconnectAux (4 * totalConns s + 7) ok now c2 u2 st)
      ok now c u s)).connections u).isNone = true
  · rw [if_pos h3]
    intro _ p hp
    exact removeUserRooms_not_mem u hp
  · rw [if_neg h3]
    intro hnone
    exfalso
    exact h3 (Option.isNone_iff_eq_none.mpr hnone)

/-- C9 (amended): `unregister` is idempotent — a second disconnect of the
same (connection id, identity) pair is a no-op — and a disconnect of a
never-registered id leaves the state unchanged provided the identity is
online or belongs to no room; the sole deviation from the claim as stated
is that for an offline identity still in some room, the room-cleanup block
removes it from its rooms (the counterexample above). -/
theorem claim_C9_unregister_idempotent :
    (∀ (ok : ConnId → Bool) (now now2 : Nat) (c : ConnId) (u : UserId)
      (s : ManagerState), (s.connections.map Prod.fst).Nodup →
      disconnect ok now2 c u (disconnect ok now c u s) = disconnect ok now c u s) ∧
    (∀ (ok : ConnId → Bool) (now : Nat) (c : ConnId) (u : UserId)
      (s : ManagerState),
      (∀ p ∈ s.connections, c ∉ p.2) →
      s.connection_meta c = none → s.heartbeats c = none →
      (alGet s.connections u ≠ none ∨ ∀ p ∈ s.rooms, u ∉ p.2) →
      disconnect ok now c u s = s) := by
  constructor
  · intro ok now now2 c u s hn
    apply disconnect_noop
    · exact dcFresh_removed c u s hn
    · exact disconnect_meta_none c u s
    · exact disconnect_hb_none c u s
    · exact disconnect_offline_rooms
  · intro ok now c u s hcn hm hh hro
    apply disconnect_noop
    · intro hc
      obtain ⟨conns, hg⟩ := connsOf_ne_nil_key hc
      have hcc : c ∈ conns := by
        rw [connsOf, hg] at hc
        exact hc
      exact hcn (u, conns) (alGet_mem hg) hcc
    · exact hm
    · exact hh
    · intro hnone
      rcases hro with hro | hro
      · exact absurd hnone hro
      · exact hro

/-- Witness for C9 (amended): disconnecting `"c"` of user 1 twice equals
doing it once; disconnecting the never-registered `"d"` while user 1 is
still online is a no-op. -/
theorem claim_C9_witness :
    disconnect okAll 2 "c" 1 (disconnect okAll 1 "c" 1
        (connect okAll 0 1 "c" initState))
      = disconnect okAll 1 "c" 1 (connect okAll 0 1 "c" initState) ∧
    disconnect okAll 0 "d" 1 (connect okAll 0 1 "c" initState)
      = connect okAll 0 1 "c" initState :=
  ⟨claim_C9_unregister_idempotent.1 okAll 1 2 "c" 1 _ (by decide),
   claim_C9_unregister_idempotent.2 okAll 0 "d" 1 _ (by decide) (by decide)
     (by decide) (Or.inl (by decide))⟩

/-! ## Claim C3: the typing sweep -/

theorem alSet_alSet {α β : Type} [DecidableEq α] :
    ∀ (l : List (α × β)) (k : α) (v w : β),
      alSet (alSet l k v) k w = alSet l k w
  | [], k, v, w => by simp [alSet]
  | p :: t, k, v, w => by
      by_cases hp : p.1 = k
      · simp [alSet, hp]
      · simp [alSet, hp, alSet_alSet t k v w]

theorem alSet_get_self {α β : Type} [DecidableEq α] :
    ∀ {l : List (α × β)} {k : α} {v : β}, alGet l k = some v →
      alSet l k v = l
  | [], k, v, h => by simp [alGet] at h
  | p :: t, k, v, h => by
      by_cases hp : p.1 = k
      · obtain ⟨a, b⟩ := p
        have ha : a = k := hp
        subst ha
        have hb : b = v := by simpa [alGet] using h
        subst hb
        simp [alSet]
      · rw [alGet, if_neg hp] at h
        rw [alSet, if_neg hp, alSet_get_self h]

theorem alGet_of_mem_nodup {α β : Type} [DecidableEq α] :
    ∀ {l : List (α × β)} {k : α} {v : β}, (l.map Prod.fst).Nodup →
      (k, v) ∈ l → alGet l k = some v
  | [], _, _, _, h => by cases h
  | p :: t, k, v, hn, h => by
      rw [List.map_cons, List.nodup_cons] at hn
      rcases List.mem_cons.mp h with heq | h2
      · rw [← heq]
        simp [alGet]
      · by_cases hp : p.1 = k
        · exfalso
          apply hn.1
          rw [hp]
          exact List.mem_map.mpr ⟨(k, v), h2, rfl⟩
        · rw [alGet, if_neg hp]
          exact alGet_of_mem_nodup hn.2 h2

theorem alGet_foldl_alErase {α β : Type} [DecidableEq α] :
    ∀ (L : List α) (inner : List (α × β)), (inner.map Prod.fst).Nodup →
      ∀ u, alGet (L.foldl (fun l x => alErase l x) inner) u
        = if u ∈ L then none else alGet inner u
  | [], inner, _, u => by simp
  | x :: L, inner, hn, u => by
      rw [List.foldl_cons,
        alGet_foldl_alErase L _ (hn.sublist (alErase_keys_sublist x inner)) u]
      by_cases hux : u = x
      · subst hux
        by_cases huL : u ∈ L
        · simp [huL]
        · simp [huL, alGet_alErase_self hn]
      · by_cases huL : u ∈ L
        · simp [huL, hux]
        · simp [huL, hux, alGet_alErase_ne hux]

theorem foldl_alErase_nodup {α β : Type} [DecidableEq α] :
    ∀ (L : List α) (inner : List (α × β)), (inner.map Prod.fst).Nodup →
      ((L.foldl (fun l x => alErase l x) inner).map Prod.fst).Nodup
  | [], _, hn => hn
  | x :: L, inner, hn =>
      foldl_alErase_nodup L _ (hn.sublist (alErase_keys_sublist x inner))

theorem mem_expiredOf_iff {now : Nat} {inner : List (UserId × Nat)}
    (hn : (inner.map Prod.fst).Nodup) {u : UserId} :
    u ∈ expiredOf now inner ↔ ∃ e, alGet inner u = some e ∧ e < now := by
  unfold expiredOf
  constructor
  · intro hu
    rcases List.mem_map.mp hu with ⟨p, hp, hpu⟩
    have hp1 := (List.mem_filter.mp hp).1
    have hp2 : p.2 < now := by simpa using (List.mem_filter.mp hp).2
    refine ⟨p.2, ?_, hp2⟩
    rw [← hpu]
    exact alGet_of_mem_nodup hn hp1
  · rintro ⟨e, hg, he⟩
    exact List.mem_map.mpr
      ⟨(u, e), List.mem_filter.mpr ⟨alGet_mem hg, by simpa using he⟩, rfl⟩

/-- Broadcasts never touch the typing tracker (given the disconnect
function does not). -/
theorem broadcastRoomWith_typing
    {dc : ConnId → UserId → ManagerState → ManagerState} {ok : ConnId → Bool}
    {now : Nat} {r : RoomId} {ex : Option UserId} {s : ManagerState}
    (hdc : ∀ c2 u2 st, ok c2 = false →
      (dc c2 u2 st).typing_status = st.typing_status) :
    (broadcastRoomWith dc ok now r ex s).typing_status = s.typing_status :=
  broadcastRoomWith_pres (P := fun st => st.typing_status = s.typing_status)
    (fun c' n st h => by
      show (metaTouch c' n st).typing_status = s.typing_status
      rw [metaTouch_typing]
      exact h)
    (fun c2 u2 st h2 h => by
      show (dc c2 u2 st).typing_status = s.typing_status
      rw [hdc c2 u2 st h2]
      exact h)
    rfl

/-- The typing map after sweeping one room's expired users: the room's
inner dict has each swept user deleted (and broadcasts change nothing). -/
theorem sweepRoomFold_typing
    {dc : ConnId → UserId → ManagerState → ManagerState} {ok : ConnId → Bool}
    {now : Nat} {r : RoomId}
    (hdc : ∀ c2 u2 st, ok c2 = false →
      (dc c2 u2 st).typing_status = st.typing_status) :
    ∀ (E : List UserId) (s : ManagerState) (inner : List (UserId × Nat)),
      alGet s.typing_status r = some inner →
      (E.foldl (sweepRoomStep dc ok now r) s).typing_status
        = alSet s.typing_status r (E.foldl (fun l x => alErase l x) inner)
  | [], s, inner, h => by
      rw [List.foldl_nil, List.foldl_nil, alSet_get_self h]
  | uid :: E, s, inner, h => by
      rw [List.foldl_cons, List.foldl_cons]
      have hstep : (sweepRoomStep dc ok now r s uid).typing_status
          = alSet s.typing_status r (alErase inner uid) := by
        unfold sweepRoomStep
        rw [broadcastRoomWith_typing hdc]
        show alSet s.typing_status r
          (alErase ((alGet s.typing_status r).getD []) uid) = _
        rw [h]
        rfl
      have h2 : alGet (sweepRoomStep dc ok now r s uid).typing_status r
          = some (alErase inner uid) := by
        rw [hstep, alGet_alSet_self]
      rw [sweepRoomFold_typing hdc E _ _ h2, hstep, alSet_alSet]

/-- Full characterisation of the typing sweep over a duplicate-free list of
room keys: (A) exactly the strictly-expired entries of listed rooms are
reported; (B) listed rooms keep exactly their unexpired entries; (C)
unlisted rooms are untouched; (D) the room keys are unchanged; (E) inner
dicts stay duplicate-free. -/
theorem sweepTypingAux_spec
    {dc : ConnId → UserId → ManagerState → ManagerState} {ok : ConnId → Bool}
    {now : Nat}
    (hdc : ∀ c2 u2 st, ok c2 = false →
      (dc c2 u2 st).typing_status = st.typing_status) :
    ∀ (L : List RoomId) (s : ManagerState), L.Nodup →
      (∀ r ∈ L, (((alGet s.typing_status r).getD []).map Prod.fst).Nodup) →
      (∀ r u, ((r, u) ∈ (sweepTypingAux dc ok now L s).1 ↔
        r ∈ L ∧ ∃ e, typingOf s r u = some e ∧ e < now)) ∧
      (∀ r ∈ L, ∀ u, typingOf (sweepTypingAux dc ok now L s).2 r u
        = sweepResultEntry now (typingOf s r u)) ∧
      (∀ r, r ∉ L → alGet (sweepTypingAux dc ok now L s).2.typing_status r
        = alGet s.typing_status r) ∧
      ((sweepTypingAux dc ok now L s).2.typing_status.map Prod.fst
        = s.typing_status.map Prod.fst) ∧
      (∀ r ∈ L, (((alGet (sweepTypingAux dc ok now L s).2.typing_status r).getD
        []).map Prod.fst).Nodup) := by
  intro L
  induction L with
  | nil =>
      intro s _ _
      refine ⟨?_, ?_, ?_, rfl, ?_⟩
      · intro r u
        simp [sweepTypingAux]
      · intro r hr
        simp at hr
      · intro r _
        rfl
      · intro r hr
        simp at hr
  | cons r rest ih =>
      intro s hL hInner
      rw [List.nodup_cons] at hL
      obtain ⟨hrL, hLrest⟩ := hL
      have hInnerR := hInner r (List.mem_cons_self _ _)
      cases hg : alGet s.typing_status r with
      | none =>
          have hE : expiredOf now ((alGet s.typing_status r).getD []) = [] := by
            rw [hg]
            rfl
          have hs1 : (expiredOf now ((alGet s.typing_status r).getD [])).foldl
              (sweepRoomStep dc ok now r) s = s := by
            rw [hE]
            rfl
          rw [sweepTypingAux_cons, hs1, hE]
          simp only [List.map_nil, List.nil_append]
          obtain ⟨ihA, ihB, ihC, ihD, ihE⟩ := ih s hLrest
            (fun r2 hr2 => hInner r2 (List.mem_cons_of_mem _ hr2))
          refine ⟨?_, ?_, ?_, ihD, ?_⟩
          · intro r2 u
            rw [ihA r2 u]
            constructor
            · rintro ⟨hr2, he⟩
              exact ⟨List.mem_cons_of_mem _ hr2, he⟩
            · rintro ⟨hr2, he⟩
              rcases List.mem_cons.mp hr2 with rfl | hr2rest
              · exfalso
                obtain ⟨e, hty, _⟩ := he
                rw [typingOf, hg] at hty
                simp [alGet] at hty
              · exact ⟨hr2rest, he⟩
          · intro r2 hr2 u
            rcases List.mem_cons.mp hr2 with rfl | hr2rest
            · have h1 : typingOf (sweepTypingAux dc ok now rest s).2 r2 u
                  = none := by
                rw [typingOf, ihC r2 hrL, hg]
                simp [alGet]
              rw [h1, typingOf, hg]
              simp [alGet, sweepResultEntry]
            · exact ihB r2 hr2rest u
          · intro r2 hr2
            exact ihC r2 (fun h2 => hr2 (List.mem_cons_of_mem _ h2))
          · intro r2 hr2
            rcases List.mem_cons.mp hr2 with rfl | hr2rest
            · rw [ihC r2 hrL, hg]
              simp
            · exact ihE r2 hr2rest
      | some inner =>
          have hgetd : (alGet s.typing_status r).getD [] = inner := by
            rw [hg]
            rfl
          have hInnerN : (inner.map Prod.fst).Nodup := by
            rw [← hgetd]
            exact hInnerR
          rw [sweepTypingAux_cons, hgetd]
          have hs1typ : ((expiredOf now inner).foldl
              (sweepRoomStep dc ok now r) s).typing_status
              = alSet s.typing_status r
                ((expiredOf now inner).foldl (fun l x => alErase l x) inner) :=
            sweepRoomFold_typing hdc _ s inner hg
          have hs1get_r : alGet ((expiredOf now inner).foldl
              (sweepRoomStep dc ok now r) s).typing_status r
              = some ((expiredOf now inner).foldl (fun l x => alErase l x) inner) := by
            rw [hs1typ, alGet_alSet_self]
          have hs1get_ne : ∀ r2, r2 ≠ r →
              alGet ((expiredOf now inner).foldl
                (sweepRoomStep dc ok now r) s).typing_status r2
                = alGet s.typing_status r2 := by
            intro r2 h2
            rw [hs1typ, alGet_alSet_ne h2]
          have hs1keys : ((expiredOf now inner).foldl
              (sweepRoomStep dc ok now r) s).typing_status.map Prod.fst
              = s.typing_status.map Prod.fst := by
            rw [hs1typ]
            apply alSet_keys_of_mem
            by_contra hmem
            rw [alGet_eq_none_iff.mpr hmem] at hg
            cases hg
          have hInner1 : ∀ r2 ∈ rest,
              (((alGet ((expiredOf now inner).foldl
                (sweepRoomStep dc ok now r) s).typing_status r2).getD
                []).map Prod.fst).Nodup := by
            intro r2 hr2
            have hne : r2 ≠ r := fun h2 => hrL (h2 ▸ hr2)
            rw [hs1get_ne r2 hne]
            exact hInner r2 (List.mem_cons_of_mem _ hr2)
          obtain ⟨ihA, ihB, ihC, ihD, ihE⟩ := ih _ hLrest hInner1
          have hty_s1 : ∀ r2, r2 ≠ r → ∀ u,
              typingOf ((expiredOf now inner).foldl
                (sweepRoomStep dc ok now r) s) r2 u = typingOf s r2 u := by
            intro r2 h2 u
            rw [typingOf, typingOf, hs1get_ne r2 h2]
          refine ⟨?_, ?_, ?_, ?_, ?_⟩
          · intro r2 u
            rw [List.mem_append]
            constructor
            · rintro (hmem | hmem)
              · rcases List.mem_map.mp hmem with ⟨uid, huid, heq⟩
                injection heq with h1 h2
                subst h1
                subst h2
                refine ⟨List.mem_cons_self _ _, ?_⟩
                obtain ⟨e, hge, hlt⟩ := (mem_expiredOf_iff hInnerN).mp huid
                refine ⟨e, ?_, hlt⟩
                rw [typingOf, hgetd]
                exact hge
              · obtain ⟨hr2rest, e, hty, hlt⟩ := (ihA r2 u).mp hmem
                have hne : r2 ≠ r := fun h2 => hrL (h2 ▸ hr2rest)
                refine ⟨List.mem_cons_of_mem _ hr2rest, e, ?_, hlt⟩
                rw [← hty_s1 r2 hne u]
                exact hty
            · rintro ⟨hr2, e, hty, hlt⟩
              rcases List.mem_cons.mp hr2 with rfl | hr2rest
              · left
                refine List.mem_map.mpr ⟨u, ?_, rfl⟩
                refine (mem_expiredOf_iff hInnerN).mpr ⟨e, ?_, hlt⟩
                rw [typingOf, hgetd] at hty
                exact hty
              · right
                have hne : r2 ≠ r := fun h2 => hrL (h2 ▸ hr2rest)
                refine (ihA r2 u).mpr ⟨hr2rest, e, ?_, hlt⟩
                rw [hty_s1 r2 hne u]
                exact hty
          · intro r2 hr2 u
            rcases List.mem_cons.mp hr2 with rfl | hr2rest
            · rw [typingOf, ihC r2 hrL, hs1get_r, typingOf, hgetd]
              show alGet ((expiredOf now inner).foldl
                (fun l x => alErase l x) inner) u
                = sweepResultEntry now (alGet inner u)
              rw [alGet_foldl_alErase _ _ hInnerN u]
              by_cases hmem : u ∈ expiredOf now inner
              · rw [if_pos hmem]
                obtain ⟨e, hge, hlt⟩ := (mem_expiredOf_iff hInnerN).mp hmem
                rw [hge]
                simp [sweepResultEntry, hlt]
              · rw [if_neg hmem]
                cases hgu : alGet inner u with
                | none => rfl
                | some e =>
                    have hnlt : ¬ e < now := fun hlt =>
                      hmem ((mem_expiredOf_iff hInnerN).mpr ⟨e, hgu, hlt⟩)
                    simp [sweepResultEntry, hnlt]
            · rw [ihB r2 hr2rest u, hty_s1 r2 (fun h2 => hrL (h2 ▸ hr2rest)) u]
          · intro r2 hr2
            have hner : r2 ≠ r := fun h2 => hr2 (h2 ▸ List.mem_cons_self _ _)
            have hnerest : r2 ∉ rest := fun h2 => hr2 (List.mem_cons_of_mem _ h2)
            rw [ihC r2 hnerest, hs1get_ne r2 hner]
          · rw [ihD, hs1keys]
          · intro r2 hr2
            rcases List.mem_cons.mp hr2 with rfl | hr2rest
            · rw [ihC r2 hrL, hs1get_r]
              show (((expiredOf now inner).foldl
                (fun l x => alErase l x) inner).map Prod.fst).Nodup
              exact foldl_alErase_nodup _ _ hInnerN
            · exact ihE r2 hr2rest

/-- C2: the `MESSAGE` event handler does NOT clear the sender's typing
signal.  With user 1 typing in room `"conv_7"` (expiry 5), processing a
new-message event from user 1 for conversation 7 leaves the typing entry
in place, and the next sweep (at time 6) still reports `("conv_7", 1)` —
the "stopped typing" notification the spec rules out is emitted later.
(The duplicate `ChatConnectionManager.handle_new_message` does clear it,
but the live WebSocket `MESSAGE` path never calls it.) -/
theorem claim_C2_message_leaves_typing :
    typingOf stTypingConv7 "conv_7" 1 = some 5 ∧
    typingOf (handle_message_event okAll 1 7 1 stTypingConv7) "conv_7" 1
      = some 5 ∧
    (sweep_typing okAll 6 (handle_message_event okAll 1 7 1 stTypingConv7)).1
      = [("conv_7", 1)] := by
  decide

/-- C3 counterexample: an entry whose expiry EQUALS `now` is neither
reported nor removed by `sweep(now)` — the code's comparison
`now > expiry` is strict, against the spec's "expiry ≤ now (in
particular an entry whose expiry equals now is returned)". -/
theorem claim_C3_counterexample :
    typingOf stTypingExpiry10 "r" 1 = some 10 ∧
    ("r", (1 : UserId)) ∉ (sweep_typing okAll 10 stTypingExpiry10).1 ∧
    typingOf (sweep_typing okAll 10 stTypingExpiry10).2 "r" 1 = some 10 := by
  decide

/-- C3 (corrected: strict comparison): on a well-formed typing tracker,
`sweep(now)` reports exactly the entries whose expiry is strictly less
than `now`, each surviving entry keeps its expiry and each reported one
is removed (`sweepResultEntry`), and a second immediate sweep at the same
`now` reports nothing at all — no entry is ever reported twice. -/
theorem claim_C3_sweep_exact (ok : ConnId → Bool) (now : Nat)
    (s : ManagerState)
    (hkeys : (s.typing_status.map Prod.fst).Nodup)
    (hinner : ∀ p ∈ s.typing_status, (p.2.map Prod.fst).Nodup) :
    (∀ r u, ((r, u) ∈ (sweep_typing ok now s).1 ↔
      ∃ e, typingOf s r u = some e ∧ e < now)) ∧
    (∀ r u, typingOf (sweep_typing ok now s).2 r u
      = sweepResultEntry now (typingOf s r u)) ∧
    (sweep_typing ok now (sweep_typing ok now s).2).1 = [] := by
  have hdc : ∀ c2 u2 st, ok c2 = false →
      (dcFresh ok now c2 u2 st).typing_status = st.typing_status := by
    intro c2 u2 st _
    exact disconnectAux_typing _ c2 u2 st
  have hsw : sweep_typing ok now s
      = sweepTypingAux (dcFresh ok now) ok now
        (s.typing_status.map Prod.fst) s := rfl
  have hInner : ∀ r ∈ s.typing_status.map Prod.fst,
      (((alGet s.typing_status r).getD []).map Prod.fst).Nodup := by
    intro r hr
    cases hg : alGet s.typing_status r with
    | none => exact absurd hr (alGet_eq_none_iff.mp hg)
    | some l =>
        have h2 := hinner (r, l) (alGet_mem hg)
        simpa using h2
  obtain ⟨hA, hB, hC, hD, hE⟩ :=
    sweepTypingAux_spec hdc (s.typing_status.map Prod.fst) s hkeys hInner
  have hpart1 : ∀ r u, ((r, u) ∈ (sweep_typing ok now s).1 ↔
      ∃ e, typingOf s r u = some e ∧ e < now) := by
    intro r u
    rw [hsw, hA r u]
    constructor
    · rintro ⟨_, he⟩
      exact he
    · intro he
      refine ⟨?_, he⟩
      obtain ⟨e, hty, _⟩ := he
      by_contra hr
      rw [typingOf, alGet_eq_none_iff.mpr hr] at hty
      simp [alGet] at hty
  have hpart2 : ∀ r u, typingOf (sweep_typing ok now s).2 r u
      = sweepResultEntry now (typingOf s r u) := by
    intro r u
    rw [hsw]
    by_cases hr : r ∈ s.typing_status.map Prod.fst
    · exact hB r hr u
    · have hg : alGet s.typing_status r = none := alGet_eq_none_iff.mpr hr
      rw [typingOf, hC r hr, hg, typingOf, hg]
      simp [alGet, sweepResultEntry]
  have hpart3 : (sweep_typing ok now (sweep_typing ok now s).2).1 = [] := by
    have hpostkeys : (sweep_typing ok now s).2.typing_status.map Prod.fst
        = s.typing_status.map Prod.fst := by
      rw [hsw]
      exact hD
    have hpostInner : ∀ r ∈ (sweep_typing ok now s).2.typing_status.map
        Prod.fst,
        (((alGet (sweep_typing ok now s).2.typing_status r).getD
          []).map Prod.fst).Nodup := by
      rw [hsw, hD]
      intro r hr
      exact hE r hr
    have hpostNodup :
        ((sweep_typing ok now s).2.typing_status.map Prod.fst).Nodup := by
      rw [hpostkeys]
      exact hkeys
    obtain ⟨hA2, hB2, hC2, hD2, hE2⟩ := sweepTypingAux_spec hdc
      ((sweep_typing ok now s).2.typing_status.map Prod.fst)
      (sweep_typing ok now s).2 hpostNodup hpostInner
    have hsw2 : sweep_typing ok now (sweep_typing ok now s).2
        = sweepTypingAux (dcFresh ok now) ok now
          ((sweep_typing ok now s).2.typing_status.map Prod.fst)
          (sweep_typing ok now s).2 := rfl
    rw [hsw2]
    apply List.eq_nil_iff_forall_not_mem.mpr
    intro p hp
    obtain ⟨r, u⟩ := p
    obtain ⟨_, e, hty, hlt⟩ := (hA2 r u).mp hp
    rw [hpart2 r u] at hty
    cases hty0 : typingOf s r u with
    | none =>
        rw [hty0] at hty
        simp [sweepResultEntry] at hty
    | some e0 =>
        rw [hty0] at hty
        by_cases hlt0 : e0 < now
        · simp [sweepResultEntry, hlt0] at hty
        · simp [sweepResultEntry, hlt0] at hty
          subst hty
          exact absurd hlt hlt0
  exact ⟨hpart1, hpart2, hpart3⟩

/-- C3 witness: the sweep theorem instantiated on a concrete tracker
(user 1 typing in room `"r"` with expiry 10, swept at time 11): the
entry is reported, the post-state lookup is `none`, and the immediate
second sweep reports nothing. -/
theorem claim_C3_witness :
    ("r", (1 : UserId)) ∈ (sweep_typing okAll 11 stTypingExpiry10).1 ∧
    typingOf (sweep_typing okAll 11 stTypingExpiry10).2 "r" 1 = none ∧
    (sweep_typing okAll 11 (sweep_typing okAll 11 stTypingExpiry10).2).1
      = [] := by
  have h := claim_C3_sweep_exact okAll 11 stTypingExpiry10 (by decide)
    (by decide)
  exact ⟨(h.1 "r" 1).mpr ⟨10, by decide, by decide⟩,
    (h.2.1 "r" 1).trans (by decide), h.2.2⟩

end Netzeal
